import Mathlib

set_option maxRecDepth 10000

/-!
# Verification of a crit-bit tree library

This file gives a shallow embedding of a Go crit-bit (PATRICIA) tree
library: binary keys with bit-level comparison primitives (`Key.Critbit`,
`Key.Direction`, `Key.HasPrefix`, `Key.Equal`), the tree engine
(`Tree.Get`, `Tree.Set`, `Tree.Delete`, `Tree.Longest`) and the
stack-based ordered scanner (`Scanner.Scan`).

Modelling conventions:
* Go byte slices become `List Nat` with every element below 256.
* Go `int` values that are always non-negative in the modelled code paths
  become `Nat`; `Key.Critbit` returns `Int` because `-1` is its
  "identical keys" sentinel.
* Out-of-range byte reads (`s[i]` beyond the slice, a runtime panic in Go)
  are totalized as reading the byte `0`, matching the zero-padding
  convention for insignificant bits.  All concrete evaluations used as
  counterexamples below stay in bounds, so they agree with the Go code
  exactly.  The one modelled code path that can read out of range on
  well-formed inputs is `Key.Critbit` (Go then panics instead of
  returning); `Key.CritbitSafe` states that every read a `Critbit` call
  performs is in range, and theorems about completing executions carry it
  as a hypothesis where the distinction matters.
* The Go `Node` struct holds two nullable pointers of which at most one is
  set; it is modelled as the tagged union `Node` with an `empty` case.
* In-place mutation through pointers (`leaf.Value = value`, `*p = ...`)
  becomes structural rebuilding along the very same walk
  (`Node.replaceValue`, `Node.insertAt`, `Node.delete`); the walks use the
  same `Direction` decisions as the pointer-chasing loops in the source.
-/

namespace Critbit

/-- A data byte, kept as a `Nat` below 256. -/
abbrev Byte := Nat

/-- Bit `j` of a byte, most significant first (Go `b & (0x80 >> j) != 0`). -/
def getBit (b : Byte) (j : Nat) : Bool := b.testBit (7 - j)

/-- Go `bits.LeadingZeros8`: number of leading zero bits of a byte
(`8 - len8tab[x]` in the Go runtime, a bit-length lookup table). -/
def leadingZeros8 (d : Byte) : Nat :=
  if 128 ≤ d then 0
  else if 64 ≤ d then 1
  else if 32 ≤ d then 2
  else if 16 ≤ d then 3
  else if 8 ≤ d then 4
  else if 4 ≤ d then 5
  else if 2 ≤ d then 6
  else if 1 ≤ d then 7
  else 8

/-- Go `^byte(0) << (8 - mod)`: a byte whose top `mod` bits are set. -/
def maskTop (mod : Nat) : Byte := (255 <<< (8 - mod)) % 256

/-- A binary key: a byte sequence and the number of significant bits
(Go `type Key struct { Data []byte; Nbits int }`). -/
structure Key where
  Data : List Byte
  Nbits : Nat
deriving DecidableEq, Repr

/-- Byte `i` of the key data, reading `0` out of range. -/
def Key.byteAt (k : Key) (i : Nat) : Byte := k.Data.getD i 0

/-- Bit `i` of the key data (MSB-first within each byte). -/
def Key.bitAt (k : Key) (i : Nat) : Bool := getBit (k.byteAt (i / 8)) (i % 8)

/-- Bit `i` of the key, reading insignificant positions as zero. -/
def Key.ebit (k : Key) (i : Nat) : Bool := if i < k.Nbits then k.bitAt i else false

/-- The significant bits of a key, as a list. -/
def Key.bits (k : Key) : List Bool := (List.range k.Nbits).map k.bitAt

/-- Well-formed key: `nbits` within the data, data made of bytes, and all
insignificant trailing bits zero. -/
def Key.WF (k : Key) : Prop :=
  k.Nbits ≤ 8 * k.Data.length ∧ (∀ b ∈ k.Data, b < 256) ∧
    ∀ i < 8 * k.Data.length, k.Nbits ≤ i → k.bitAt i = false

instance (k : Key) : Decidable k.WF := by
  unfold Key.WF; infer_instance

/-- Canonical key: well-formed and with no bytes beyond `⌈nbits/8⌉`. -/
def Key.Canon (k : Key) : Prop := k.WF ∧ k.Data.length = (k.Nbits + 7) / 8

instance (k : Key) : Decidable k.Canon := by
  unfold Key.Canon; infer_instance

/-- Go `Key.Equal`: same bit count and identical raw data. -/
def Key.Equal (k b : Key) : Bool := k.Nbits == b.Nbits && k.Data == b.Data

/-- The full-byte comparison loop of Go `Key.Critbit`: scan `fuel` bytes
from offset `off`, returning the first differing offset together with the
leading-zero count of the XOR of the differing bytes. -/
def critbitLoop (kd bd : List Byte) (off : Nat) : Nat → Option (Nat × Nat)
  | 0 => none
  | fuel + 1 =>
    let d := (kd.getD off 0) ^^^ (bd.getD off 0)
    if d ≠ 0 then some (off, leadingZeros8 d)
    else critbitLoop kd bd (off + 1) fuel

/-- The final length comparison of Go `Key.Critbit`. -/
def Key.critbitTail (k b : Key) : Int :=
  if k.Nbits = b.Nbits then -1
  else if k.Nbits < b.Nbits then Int.ofNat (k.Nbits <<< 1)
  else Int.ofNat (b.Nbits <<< 1)

/-- Go `Key.Critbit`: position of the first critical bit where the keys
differ, encoded as `(byte_offset <<< 4) ||| (bit_offset <<< 1) ||| 1` for
data differences and `shorter_length <<< 1` for length differences, or
`-1` for identical keys.  Note the faithful translation of the Go
`if koff < boff` selection of `moff`/`mod`.

Go indexes `k.Data[off]` and `b.Data[off]` directly and panics when an
index is out of range — which the equal-byte-floor `mod` selection makes
possible even for well-formed keys (a byte-aligned key has no byte at its
own byte-floor, yet `moff` can land there when the other key is longer
within the same byte).  The model reads such bytes as `0`;
`Key.CritbitSafe` below states that every read a call performs is in
range, so that theorems about completing executions can exclude the
panicking ones. -/
def Key.Critbit (k b : Key) : Int :=
  let koff := k.Nbits >>> 3
  let boff := b.Nbits >>> 3
  let moff := if koff < boff then koff else boff
  let mod := if koff < boff then k.Nbits &&& 7 else b.Nbits &&& 7
  match critbitLoop k.Data b.Data 0 moff with
  | some (off, msbbit) => Int.ofNat ((off <<< 4) ||| (msbbit <<< 1) ||| 1)
  | none =>
    if mod > 0 then
      let d := ((k.Data.getD moff 0) ^^^ (b.Data.getD moff 0)) &&& maskTop mod
      if d ≠ 0 then Int.ofNat ((moff <<< 4) ||| (leadingZeros8 d <<< 1) ||| 1)
      else k.critbitTail b
    else k.critbitTail b

/-- Whether the byte reads of the full-byte comparison loop of Go
`Key.Critbit` all stay in range: the loop dereferences both slices at
each offset it visits, and stops visiting at the first differing pair. -/
def critbitLoopSafe (kd bd : List Byte) (off : Nat) : Nat → Bool
  | 0 => true
  | fuel + 1 =>
    decide (off < kd.length) && decide (off < bd.length) &&
      (let d := (kd.getD off 0) ^^^ (bd.getD off 0)
       if d ≠ 0 then true else critbitLoopSafe kd bd (off + 1) fuel)

/-- Every byte index the Go call `k.Critbit(b)` dereferences is within
its slice: the full-byte loop reads in range, and when the loop finishes
without a difference and a partial byte remains (`mod > 0`), the shared
byte at `moff` exists in both slices.  When this fails, Go panics with an
index-out-of-range error instead of returning. -/
def Key.CritbitSafe (k b : Key) : Prop :=
  let koff := k.Nbits >>> 3
  let boff := b.Nbits >>> 3
  let moff := if koff < boff then koff else boff
  let mod := if koff < boff then k.Nbits &&& 7 else b.Nbits &&& 7
  critbitLoopSafe k.Data b.Data 0 moff = true ∧
    (critbitLoop k.Data b.Data 0 moff = none → 0 < mod →
      moff < k.Data.length ∧ moff < b.Data.length)

instance (k b : Key) : Decidable (k.CritbitSafe b) := by
  unfold Key.CritbitSafe
  infer_instance

/-- Go `Key.Direction`: which branch a key follows at an encoded critical
bit (0 = left, 1 = right).  `bit` is an encoded ordinal as produced by
`Critbit`; the tree only ever stores non-negative ordinals. -/
def Key.Direction (k : Key) (bit : Nat) : Nat :=
  let koff := (k.Nbits + 7) >>> 3
  let cbit := bit >>> 1
  let coff := cbit >>> 3
  if coff < koff ∧ (k.byteAt coff) &&& (0x80 >>> (cbit &&& 0x7)) ≠ 0 then 1
  else if bit &&& 1 ≠ 0 then 0
  else if cbit < k.Nbits then 1
  else 0

/-- The full-byte comparison loop of Go `Key.HasPrefix`. -/
def hasPrefixLoop (kd pd : List Byte) (off : Nat) : Nat → Bool
  | 0 => true
  | fuel + 1 =>
    if kd.getD off 0 ≠ pd.getD off 0 then false
    else hasPrefixLoop kd pd (off + 1) fuel

/-- Go `Key.HasPrefix`: whether every significant bit of `p` equals the
corresponding bit of `k`. -/
def Key.HasPrefix (k p : Key) : Bool :=
  if k.Nbits < p.Nbits then false
  else
    let n := p.Nbits >>> 3
    if hasPrefixLoop k.Data p.Data 0 n then
      let mod := p.Nbits &&& 7
      if mod > 0 then
        (((k.Data.getD n 0) ^^^ (p.Data.getD n 0)) &&& maskTop mod) == 0
      else true
    else false

/-- Tree node (Go `Leaf` / `Inner` / the zero `Node`, as a tagged union).
`inner bit left right` corresponds to `Inner{bit, child: [2]Node}` with
`child[0] = left`, `child[1] = right`. -/
inductive Node (V : Type) where
  | empty : Node V
  | leaf (key : Key) (val : V) : Node V
  | inner (bit : Nat) (left right : Node V) : Node V
deriving DecidableEq

/-- Go `Tree`: entry count and root node. -/
structure Tree (V : Type) where
  nums : Nat
  root : Node V
deriving DecidableEq

namespace Node

variable {V : Type}

/-- Go `Tree.findLeaf`, walking by `Direction` to the leaf slot. -/
def findLeaf (n : Node V) (key : Key) : Option (Key × V) :=
  match n with
  | .empty => none
  | .leaf k v => some (k, v)
  | .inner bit l r =>
    if key.Direction bit == 1 then r.findLeaf key else l.findLeaf key

/-- The in-place value replacement of Go `Tree.Set` (`leaf.Value = value`
through the pointer returned by `findLeaf`): rebuild along the same walk. -/
def replaceValue (n : Node V) (key : Key) (val : V) : Node V :=
  match n with
  | .empty => .empty
  | .leaf k _ => .leaf k val
  | .inner bit l r =>
    if key.Direction bit == 1 then .inner bit l (r.replaceValue key val)
    else .inner bit (l.replaceValue key val) r

/-- Go `Tree.insertNode`: a new inner node at ordinal `bit` whose
`child[dir]` is the new leaf and `child[dir^1]` the displaced subtree. -/
def splice (n : Node V) (key : Key) (val : V) (bit : Nat) : Node V :=
  if key.Direction bit == 1 then .inner bit n (.leaf key val)
  else .inner bit (.leaf key val) n

/-- Go `Tree.findNode` followed by `Tree.insertNode`: descend through
inner nodes whose bit does not exceed `bit`, then splice. -/
def insertAt (n : Node V) (key : Key) (val : V) (bit : Nat) : Node V :=
  match n with
  | .inner ibit l r =>
    if ibit > bit then n.splice key val bit
    else if key.Direction ibit == 1 then .inner ibit l (r.insertAt key val bit)
    else .inner ibit (l.insertAt key val bit) r
  | _ => n.splice key val bit

/-- Go `Tree.Delete`'s walk: `none` when the key is absent, otherwise the
subtree after removing the leaf (with the removed leaf's parent replaced
by its other child, and `some .empty` when the node was the leaf itself). -/
def delete (n : Node V) (key : Key) : Option (Node V) :=
  match n with
  | .empty => none
  | .leaf k _ => if k.Equal key then some .empty else none
  | .inner bit l r =>
    if key.Direction bit == 1 then
      match r.delete key with
      | none => none
      | some .empty => some l
      | some r' => some (.inner bit l r')
    else
      match l.delete key with
      | none => none
      | some .empty => some r
      | some l' => some (.inner bit l' r)

/-- Go `Node.Longest`: longest-prefix-match search with the asymmetric
fallback (`if dir == 1 { return inner.child[0].Longest(key) }`). -/
def Longest (n : Node V) (key : Key) : Option V :=
  match n with
  | .empty => none
  | .leaf k v => if key.HasPrefix k then some v else none
  | .inner bit l r =>
    if key.Direction bit == 1 then
      match r.Longest key with
      | some v => some v
      | none => l.Longest key
    else l.Longest key

/-- Number of leaf nodes reachable from a node. -/
def leafCount : Node V → Nat
  | .empty => 0
  | .leaf _ _ => 1
  | .inner _ l r => l.leafCount + r.leafCount

/-- The leaves of a node in traversal order for scan direction `dir`
(`dir = 0`: left to right). -/
def leavesDir (dir : Nat) : Node V → List (Key × V)
  | .empty => []
  | .leaf k v => [(k, v)]
  | .inner _ l r =>
    if dir == 1 then leavesDir dir r ++ leavesDir dir l
    else leavesDir dir l ++ leavesDir dir r

/-- Total number of nodes, used as scan fuel. -/
def size : Node V → Nat
  | .empty => 1
  | .leaf _ _ => 1
  | .inner _ l r => l.size + r.size + 1

/-- The leftmost leaf of a node. -/
def leftmost : Node V → Option (Key × V)
  | .empty => none
  | .leaf k v => some (k, v)
  | .inner _ l _ => l.leftmost

end Node

namespace Tree

variable {V : Type}

/-- The Go zero value `Tree{}`. -/
def empty : Tree V := ⟨0, .empty⟩

/-- Go `Tree.Len`. -/
def Len (t : Tree V) : Nat := t.nums

/-- Go `Tree.Get` (`none` models `(zero value, false)`). -/
def Get (t : Tree V) (key : Key) : Option V :=
  match t.root.findLeaf key with
  | none => none
  | some (k, v) => if k.Equal key then some v else none

/-- Go `Tree.Set`. -/
def Set (t : Tree V) (key : Key) (val : V) : Tree V :=
  match t.root.findLeaf key with
  | none => { nums := t.nums + 1, root := .leaf key val }
  | some (k, _) =>
    let bit := k.Critbit key
    if bit = -1 then { t with root := t.root.replaceValue key val }
    else { nums := t.nums + 1, root := t.root.insertAt key val bit.toNat }

/-- Go `Tree.Delete`. -/
def Delete (t : Tree V) (key : Key) : Tree V :=
  match t.root.delete key with
  | none => t
  | some n => { nums := t.nums - 1, root := n }

/-- Go `Tree.Longest`. -/
def Longest (t : Tree V) (key : Key) : Option V := t.root.Longest key

end Tree

/-- Go `Scanner`: traversal direction and explicit stack.  The head of the
list is the top of the stack (Go appends to and pops from the slice end). -/
structure Scanner (V : Type) where
  dir : Nat
  stack : List (Node V)

/-- Go `NewScanner`. -/
def NewScanner {V : Type} (root : Node V) (reverse : Bool) : Scanner V :=
  { dir := if reverse then 1 else 0, stack := [root] }

/-- The descent loop of Go `Scanner.Scan`: while the node is inner, push
`child[dir^1]` and continue with `child[dir]`; finally report the node's
leaf (or `none` for the empty node). -/
def scanDown {V : Type} (dir : Nat) :
    Node V → List (Node V) → Option (Key × V) × List (Node V)
  | .empty, stk => (none, stk)
  | .leaf k v, stk => (some (k, v), stk)
  | .inner _ l r, stk =>
    if dir == 1 then scanDown dir r (l :: stk)
    else scanDown dir l (r :: stk)

namespace Scanner

variable {V : Type}

/-- Go `Scanner.Scan`: pop (yielding the empty node when the stack is
empty), descend, and return the next leaf or the exhausted sentinel. -/
def Scan (s : Scanner V) : Option (Key × V) × Scanner V :=
  match s.stack with
  | [] => (none, s)
  | n :: rest =>
    let p := scanDown s.dir n rest
    (p.1, { s with stack := p.2 })

/-- The results of `m` successive `Scan` calls. -/
def scanN (s : Scanner V) : Nat → List (Option (Key × V))
  | 0 => []
  | m + 1 =>
    let p := s.Scan
    p.1 :: p.2.scanN m

end Scanner

/-- Go `Tree.All`: run a forward scanner to exhaustion (`size` calls always
suffice, see the scanner theorems below). -/
def Tree.All {V : Type} (t : Tree V) : List (Key × V) :=
  ((NewScanner t.root false).scanN t.root.size).reduceOption

/-- Go `Tree.Keys`. -/
def Tree.Keys {V : Type} (t : Tree V) : List Key := t.All.map Prod.fst

/-- Go `Tree.Values`. -/
def Tree.Values {V : Type} (t : Tree V) : List V := t.All.map Prod.snd

/-- Trees reachable from the empty tree by `Set` and `Delete` with
arbitrary keys. -/
inductive Reachable {V : Type} : Tree V → Prop
  | empty : Reachable Tree.empty
  | set {t : Tree V} (k : Key) (v : V) : Reachable t → Reachable (t.Set k v)
  | del {t : Tree V} (k : Key) : Reachable t → Reachable (t.Delete k)

/-- Trees reachable from the empty tree by `Set` and `Delete` with
canonical (well-formed, zero-padded, minimal-length) keys. -/
inductive ReachableC {V : Type} : Tree V → Prop
  | empty : ReachableC Tree.empty
  | set {t : Tree V} (k : Key) (v : V) : ReachableC t → k.Canon →
      ReachableC (t.Set k v)
  | del {t : Tree V} (k : Key) : ReachableC t → k.Canon →
      ReachableC (t.Delete k)

/-- Strict ascending order on bit strings: byte-major, bit-major, with a
proper prefix sorting before its extensions. -/
def bitsLt : List Bool → List Bool → Bool
  | [], [] => false
  | [], _ :: _ => true
  | _ :: _, [] => false
  | x :: xs, y :: ys => (!x && y) || (x == y && bitsLt xs ys)

/-- All inner bits in the node strictly exceed `e`, and keep strictly
increasing downward. -/
def Node.innerOrderedFrom {V : Type} (e : Nat) : Node V → Bool
  | .empty => true
  | .leaf _ _ => true
  | .inner f l r => decide (e < f) && l.innerOrderedFrom f && r.innerOrderedFrom f

/-- Every inner node's critical bit is strictly greater than the critical
bits of all of its inner ancestors. -/
def Node.innerOrdered {V : Type} : Node V → Bool
  | .empty => true
  | .leaf _ _ => true
  | .inner f l r => l.innerOrderedFrom f && r.innerOrderedFrom f

/-! Concrete canonical keys exercising the `Critbit` partial-byte mask:
`cexA` (9 bits) is a proper bit-string prefix of `cexB` (12 bits), yet the
two keys have equal byte-floors (`9 >>> 3 = 12 >>> 3 = 1`), so
`cexA.Critbit cexB` masks the shared partial byte with the *longer* key's
remainder (4 bits) rather than the shorter key's (1 bit). -/

/-- 9-bit key `0 0000 0000`. -/
def cexA : Key := ⟨[0x00, 0x00], 9⟩

/-- 12-bit key `0000 0000 0111`. -/
def cexB : Key := ⟨[0x00, 0x70], 12⟩

/-- 12-bit key `0000 0000 0000`. -/
def cexD : Key := ⟨[0x00, 0x00], 12⟩

/-- 10-bit key `00 0000 0001`. -/
def cexY : Key := ⟨[0x00, 0x40], 10⟩

/-- 13-bit query key `0 0000 0000 1110`. -/
def cexQ : Key := ⟨[0x00, 0x70], 13⟩

/-- The tree `{cexA ↦ 1, cexB ↦ 2}`. -/
def cexT2 : Tree Nat := ((Tree.empty : Tree Nat).Set cexA 1).Set cexB 2

/-- `cexT2` after `Set cexD 3`. -/
def cexT3 : Tree Nat := cexT2.Set cexD 3

/-- `cexT3` after `Set cexY 4`. -/
def cexT4 : Tree Nat := cexT3.Set cexY 4

/-- `cexT3` after deleting and re-inserting `cexA`. -/
def cexT7 : Tree Nat := (cexT3.Delete cexA).Set cexA 5

/-- 8-bit key `1000 0000` with minimal data. -/
def cexK1 : Key := ⟨[0x80], 8⟩

/-- 8-bit key `1000 0000` carrying one extra (zero) data byte: well formed
and zero padded, but not byte-for-byte equal to `cexK1`. -/
def cexK2 : Key := ⟨[0x80, 0x00], 8⟩

/-- A node with an empty child below an inner node (not reachable through
the tree API, but a possible `Node` snapshot). -/
def cexBadNode : Node Nat := .inner 0 .empty (.leaf cexK1 7)

/-- The number of bit positions the comparison loops of `Key.Critbit`
actually examine: `8 * moff + mod` for the `moff`/`mod` selected by the
Go code (the second key's remainder whenever the byte-floors are equal). -/
def compareLen (a b : Key) : Nat :=
  if a.Nbits >>> 3 < b.Nbits >>> 3 then a.Nbits else b.Nbits

/-- No empty node strictly below an inner node (true of every reachable
tree's root). -/
def Node.NE {V : Type} : Node V → Prop
  | .empty => True
  | .leaf _ _ => True
  | .inner _ l r => l ≠ .empty ∧ r ≠ .empty ∧ l.NE ∧ r.NE

instance {V : Type} (n : Node V) : Decidable (n = Node.empty) :=
  match n with
  | .empty => isTrue rfl
  | .leaf _ _ => isFalse (by simp)
  | .inner _ _ _ => isFalse (by simp)

instance Node.decNE {V : Type} : (n : Node V) → Decidable n.NE
  | .empty => isTrue trivial
  | .leaf _ _ => isTrue trivial
  | .inner _ l r =>
    letI : Decidable l.NE := Node.decNE l
    letI : Decidable r.NE := Node.decNE r
    inferInstanceAs (Decidable (l ≠ .empty ∧ r ≠ .empty ∧ l.NE ∧ r.NE))

/-- The leaves still pending on a scanner stack, topmost first. -/
def stackLeaves {V : Type} (dir : Nat) : List (Node V) → List (Key × V)
  | [] => []
  | n :: rest => n.leavesDir dir ++ stackLeaves dir rest

/-- The zero-length key (`nbits = 0`, minimal data). -/
def zeroKey : Key := ⟨[], 0⟩

/-- The encoded ordinals of all inner nodes of a node. -/
def Node.innerBits {V : Type} : Node V → List Nat
  | .inner e l r => e :: (l.innerBits ++ r.innerBits)
  | _ => []

/-- Non-strict downward monotonicity of inner ordinals: each inner node's
subtrees carry only ordinals at least its own.  (The strict version of the
spec is violated by the code, see `c7_eval`; the non-strict version does
survive every `Set`/`Delete`.) -/
def Node.MonoGE {V : Type} : Node V → Prop
  | .inner e l r =>
    (∀ f ∈ l.innerBits, e ≤ f) ∧ (∀ f ∈ r.innerBits, e ≤ f) ∧
      l.MonoGE ∧ r.MonoGE
  | _ => True

/-- Agreement of two keys on every (zero-extended) bit position below `p`. -/
def Key.agreeBelow (a b : Key) (p : Nat) : Prop :=
  ∀ i < p, a.ebit i = b.ebit i

/-- Routing coherence: all leaves below an inner node agree on every bit
position below the inner node's decoded position. -/
def Node.Coh {V : Type} : Node V → Prop
  | .inner e l r =>
    l.Coh ∧ r.Coh ∧
      ∀ a ∈ l.leavesDir 0 ++ r.leavesDir 0, ∀ b ∈ l.leavesDir 0 ++ r.leavesDir 0,
        Key.agreeBelow a.1 b.1 (e >>> 1)
  | _ => True

/-- The zero-length key occurs, if at all, only as the very first leaf in
traversal order. -/
def Node.ZeroHead {V : Type} (n : Node V) : Prop :=
  ∀ lf ∈ (n.leavesDir 0).tail, lf.1 ≠ zeroKey

/-- The tree `{zeroKey ↦ 9, cexK1 ↦ 7}` storing the zero-length key. -/
def cexT9 : Tree Nat := ((Tree.empty : Tree Nat).Set zeroKey 9).Set cexK1 7

/-- An 8-bit query key matched by no positive-length key of `cexT9`. -/
def cexQ9 : Key := ⟨[0x00], 8⟩

end Critbit

namespace Critbit

/-- C1 counterexample: both keys are well formed with zero trailing bits
(the claim's stated precondition), they denote the same 8 significant bits
with different raw byte lengths, and `Set cexK2` followed immediately by
`Get cexK2` reports not-found: `Critbit` sees the stored key `cexK1` as
identical (`-1`) and replaces its value in place, but `Get`'s raw-byte
`Equal` then rejects it. -/
theorem c1_counterexample :
    cexK1.WF ∧ cexK2.WF ∧
      (((Tree.empty : Tree Nat).Set cexK1 10).Set cexK2 20).Get cexK2 = none ∧
      (((Tree.empty : Tree Nat).Set cexK1 10).Set cexK2 20).Get cexK2 ≠ some 20 := by
  decide

/-- C2 evaluation at the failing input: after inserting the canonical keys
`cexA ↦ 1, cexB ↦ 2, cexD ↦ 3, cexY ↦ 4`, the stored key `cexB` (12 bits)
is a prefix of the query `cexQ`, yet `Longest` returns `4`, the value of
the 10-bit key `cexY` — not the value of the stored prefix with the
greatest bit count. -/
theorem c2_eval :
    cexT4.Longest cexQ = some 4 ∧
      (cexB, 2) ∈ cexT4.root.leavesDir 0 ∧ cexQ.HasPrefix cexB = true ∧
      cexB.Nbits = 12 ∧
      (∀ lf ∈ cexT4.root.leavesDir 0, lf.2 = 4 → lf.1.Nbits = 10) ∧
      cexA.Canon ∧ cexB.Canon ∧ cexD.Canon ∧ cexY.Canon ∧ cexQ.Canon := by
  decide

/-- C3 evaluation at the failing input: after inserting the canonical keys
`cexA, cexB, cexD`, forward iteration yields `cexB` (bits `…0111`) before
`cexD` (bits `…0000`), violating strict ascending bit-string order. -/
theorem c3_eval :
    (NewScanner cexT3.root false).scanN 4 =
        [some (cexA, 1), some (cexB, 2), some (cexD, 3), none] ∧
      bitsLt cexB.bits cexD.bits = false ∧ cexB.bits ≠ cexD.bits ∧
      cexA.Canon ∧ cexB.Canon ∧ cexD.Canon := by
  decide

/-- C4 evaluation at the failing input: `cexA`'s significant bits are a
proper prefix of `cexB`'s, so the claim requires the LENGTH_DIFF ordinal
`min(9,12) <<< 1 = 18`; the code returns the DATA_DIFF encoding `19`
(= `(1 <<< 4) ||| (1 <<< 1) ||| 1`, bit position 9), because with equal
byte-floors it masks the shared partial byte to the *second* key's
remainder instead of the shorter key's. -/
theorem c4_eval :
    cexA.Critbit cexB = 19 ∧ cexB.HasPrefix cexA = true ∧
      cexA.Nbits < cexB.Nbits ∧ (min cexA.Nbits cexB.Nbits) <<< 1 = 18 ∧
      cexA.WF ∧ cexB.WF ∧ cexA.Canon ∧ cexB.Canon := by
  decide

/-- C5 evaluation at the failing input: `cexB ↦ 2` is stored and
retrievable, `cexD` is canonical and not `Equal` to `cexB`, yet after
`Set cexD 3` the entry for `cexB` is no longer observable. -/
theorem c5_eval :
    cexT2.Get cexB = some 2 ∧ cexB.Equal cexD = false ∧
      cexB.Canon ∧ cexD.Canon ∧ (cexT2.Set cexD 3).Get cexB = none := by
  decide

/-- C7 evaluation at the failing input: after
`Set cexA, Set cexB, Set cexD, Delete cexA, Set cexA` (all canonical
keys), the root inner node has critical bit 18 and its left child is an
inner node with the same critical bit 18 — not strictly greater than its
ancestor's. -/
theorem c7_eval :
    cexT7.root.innerOrdered = false ∧
      cexT7.root = .inner 18 (.inner 18 (.leaf cexA 5) (.leaf cexB 2))
        (.leaf cexD 3) := by
  decide

/-- C10 counterexample: over a node snapshot with one reachable leaf but
an empty child below an inner node, the first `Scan` call returns the
exhausted sentinel and the second returns the leaf — the first `n` calls
do not return the `n` leaves. -/
theorem c10_counterexample :
    cexBadNode.leafCount = 1 ∧
      (NewScanner cexBadNode false).scanN 2 = [none, some (cexK1, 7)] := by
  decide

/-! ## Byte- and bit-level facts -/

theorem getBit_xor (x y : Byte) (j : Nat) :
    getBit (x ^^^ y) j = (getBit x j).xor (getBit y j) := by
  simp [getBit, Nat.testBit_xor]

theorem getBit_zero (j : Nat) : getBit 0 j = false := by
  simp [getBit, Nat.zero_testBit]

theorem byte_lt_of_xor {x y : Byte} (hx : x < 256) (hy : y < 256) :
    x ^^^ y < 256 := by
  have := Nat.xor_lt_two_pow (n := 8) (by simpa using hx) (by simpa using hy)
  simpa using this

theorem byte_eq_of_getBit_eq {x y : Byte} (hx : x < 256) (hy : y < 256)
    (h : ∀ j < 8, getBit x j = getBit y j) : x = y := by
  apply Nat.eq_of_testBit_eq
  intro i
  by_cases hi : i < 8
  · have := h (7 - i) (by omega)
    simpa [getBit, Nat.sub_sub_self (by omega : i ≤ 7)] using this
  · rw [Nat.testBit_lt_two_pow, Nat.testBit_lt_two_pow]
    · exact lt_of_lt_of_le hy (by have : (2:Nat)^8 ≤ 2^i := Nat.pow_le_pow_right (by norm_num) (by omega); simpa using this)
    · exact lt_of_lt_of_le hx (by have : (2:Nat)^8 ≤ 2^i := Nat.pow_le_pow_right (by norm_num) (by omega); simpa using this)

/-- Specification of `leadingZeros8` on nonzero bytes: it is below 8, the
bit at that position is set, and all earlier bits are clear. -/
theorem leadingZeros8_spec : ∀ d < 256, d ≠ 0 →
    leadingZeros8 d < 8 ∧ getBit d (leadingZeros8 d) = true ∧
      ∀ j < leadingZeros8 d, getBit d j = false := by
  decide

/-- Specification of `maskTop` for remainders below 8: bit `j` of the mask
is set exactly when `j < mod`. -/
theorem maskTop_spec : ∀ mod < 8, ∀ j < 8,
    getBit (maskTop mod) j = decide (j < mod) := by
  decide

theorem maskTop_lt (mod : Nat) : maskTop mod < 256 :=
  Nat.mod_lt _ (by norm_num)

theorem getBit_and (x y : Byte) (j : Nat) :
    getBit (x &&& y) j = (getBit x j && getBit y j) := by
  simp [getBit, Nat.testBit_and]

/-- A nonzero byte has a set bit among its 8 positions. -/
theorem exists_getBit_of_ne_zero {d : Byte} (hd : d < 256) (h : d ≠ 0) :
    ∃ j < 8, getBit d j = true := by
  revert h
  revert hd
  revert d
  decide

/-- A shifted value OR-ed with a small value is their sum. -/
theorem shiftLeft_or_eq_add (a c k : Nat) (hc : c < 2 ^ k) :
    ((a <<< k) ||| c) = a * 2 ^ k + c := by
  apply Nat.eq_of_testBit_eq
  intro i
  rw [Nat.testBit_lor, Nat.testBit_shiftLeft]
  rcases Nat.lt_or_ge i k with hi | hi
  · have hsh : (decide (i ≥ k) && a.testBit (i - k)) = false := by
      simp [show ¬ (i ≥ k) by omega]
    rw [hsh, Bool.false_or]
    have hmod : (a * 2 ^ k + c).testBit i = ((a * 2 ^ k + c) % 2 ^ (i + 1)).testBit i := by
      simp [Nat.testBit_mod_two_pow, Nat.lt_succ_self]
    rw [hmod]
    obtain ⟨q, hq⟩ : (2 ^ (i + 1)) ∣ a * 2 ^ k := by
      exact Dvd.dvd.mul_left (Nat.pow_dvd_pow 2 (by omega)) a
    rw [hq, Nat.mul_add_mod]
    simp [Nat.testBit_mod_two_pow, Nat.lt_succ_self]
  · have hdiv : (a * 2 ^ k + c) >>> k = a := by
      rw [Nat.shiftRight_eq_div_pow, Nat.mul_comm a (2 ^ k),
        Nat.mul_add_div (Nat.pow_pos (by norm_num)), Nat.div_eq_of_lt hc]
      omega
    have hup : (a * 2 ^ k + c).testBit i = a.testBit (i - k) := by
      have h1 : a.testBit (i - k) = ((a * 2 ^ k + c) >>> k).testBit (i - k) := by rw [hdiv]
      rw [h1, Nat.testBit_shiftRight]
      congr 1
      omega
    have hcbit : c.testBit i = false :=
      Nat.testBit_lt_two_pow
        (lt_of_lt_of_le hc (Nat.pow_le_pow_right (by norm_num) hi))
    rw [hup, hcbit, Bool.or_false]
    simp [hi]

/-- The ordinal encoding `(o <<< 4) ||| (m <<< 1) ||| 1` is `2*(8*o+m)+1`
for bit offsets `m < 8`. -/
theorem encode_data_eq (o m : Nat) (hm : m < 8) :
    ((o <<< 4) ||| (m <<< 1) ||| 1) = 2 * (8 * o + m) + 1 := by
  rw [Nat.lor_assoc]
  have h1 : ((m <<< 1) ||| 1) = m * 2 + 1 := by
    have := shiftLeft_or_eq_add m 1 1 (by norm_num)
    simpa using this
  rw [h1]
  have h2 := shiftLeft_or_eq_add o (m * 2 + 1) 4 (by omega)
  rw [h2]
  ring

theorem bxor_eq_true_iff (p q : Bool) : p.xor q = true ↔ p ≠ q := by
  cases p <;> cases q <;> simp

theorem bxor_eq_false_iff (p q : Bool) : p.xor q = false ↔ p = q := by
  cases p <;> cases q <;> simp

theorem shiftRight3_eq (n : Nat) : n >>> 3 = n / 8 := by
  rw [Nat.shiftRight_eq_div_pow]

theorem and7_eq (n : Nat) : n &&& 7 = n % 8 := by
  have h := Nat.and_pow_two_sub_one_eq_mod n 3
  norm_num at h
  exact h

theorem shiftRight1_eq (n : Nat) : n >>> 1 = n / 2 := by
  rw [Nat.shiftRight_eq_div_pow, pow_one]

theorem shiftLeft1_eq (n : Nat) : n <<< 1 = 2 * n := by
  rw [Nat.shiftLeft_eq]
  ring

/-! ## Key-level bridging lemmas -/

namespace Key

theorem byteAt_lt {a : Key} (ha : a.WF) (i : Nat) : a.byteAt i < 256 := by
  unfold Key.byteAt
  rcases Nat.lt_or_ge i a.Data.length with h | h
  · rw [List.getD_eq_getElem _ _ h]
    exact ha.2.1 _ (List.getElem_mem h)
  · rw [List.getD_eq_default _ _ h]
    norm_num

/-- For a well-formed key, the padded bit view `ebit` coincides with the
raw data bits everywhere (insignificant positions read as zero thanks to
the padding convention, and positions beyond the data read the default
byte `0`). -/
theorem ebit_eq_raw {a : Key} (ha : a.WF) (p : Nat) :
    a.ebit p = getBit (a.byteAt (p / 8)) (p % 8) := by
  unfold Key.ebit
  split
  · rfl
  · rename_i hp
    push_neg at hp
    rcases Nat.lt_or_ge p (8 * a.Data.length) with h8 | h8
    · exact (ha.2.2 p h8 hp).symm
    · have hlen : a.Data.length ≤ p / 8 := by omega
      unfold Key.byteAt
      rw [List.getD_eq_default _ _ hlen, getBit_zero]

end Key

theorem critbitLoop_zero (kd bd : List Byte) (off : Nat) :
    critbitLoop kd bd off 0 = none := rfl

theorem critbitLoop_succ (kd bd : List Byte) (off fuel : Nat) :
    critbitLoop kd bd off (fuel + 1) =
      if (kd.getD off 0) ^^^ (bd.getD off 0) ≠ 0 then
        some (off, leadingZeros8 ((kd.getD off 0) ^^^ (bd.getD off 0)))
      else critbitLoop kd bd (off + 1) fuel := rfl

/-- If the byte loop of `Critbit` reports no difference, all scanned bytes
agree. -/
theorem critbitLoop_none {kd bd : List Byte} :
    ∀ {fuel off : Nat}, critbitLoop kd bd off fuel = none →
      ∀ i, off ≤ i → i < off + fuel → kd.getD i 0 = bd.getD i 0 := by
  intro fuel
  induction fuel with
  | zero => intro off _ i h1 h2; omega
  | succ n ih =>
    intro off h i h1 h2
    rw [critbitLoop_succ] at h
    by_cases hd : (kd.getD off 0) ^^^ (bd.getD off 0) = 0
    · have heq : kd.getD off 0 = bd.getD off 0 := Nat.xor_eq_zero.mp hd
      rw [if_neg (by simpa using hd)] at h
      rcases Nat.eq_or_lt_of_le h1 with rfl | hlt
      · exact heq
      · exact ih h i hlt (by omega)
    · rw [if_pos hd] at h
      cases h

/-- If the byte loop of `Critbit` reports a difference, it is the first
differing byte, and the reported bit offset is its leading-zero count. -/
theorem critbitLoop_some {kd bd : List Byte} :
    ∀ {fuel off o m : Nat}, critbitLoop kd bd off fuel = some (o, m) →
      off ≤ o ∧ o < off + fuel ∧
        (∀ i, off ≤ i → i < o → kd.getD i 0 = bd.getD i 0) ∧
        kd.getD o 0 ≠ bd.getD o 0 ∧
        m = leadingZeros8 ((kd.getD o 0) ^^^ (bd.getD o 0)) := by
  intro fuel
  induction fuel with
  | zero => intro off o m h; cases h
  | succ n ih =>
    intro off o m h
    rw [critbitLoop_succ] at h
    by_cases hd : (kd.getD off 0) ^^^ (bd.getD off 0) = 0
    · have heq : kd.getD off 0 = bd.getD off 0 := Nat.xor_eq_zero.mp hd
      rw [if_neg (by simpa using hd)] at h
      obtain ⟨h1, h2, h3, h4, h5⟩ := ih h
      refine ⟨by omega, by omega, ?_, h4, h5⟩
      intro i hi1 hi2
      rcases Nat.eq_or_lt_of_le hi1 with rfl | hlt
      · exact heq
      · exact h3 i hlt hi2
    · rw [if_pos hd] at h
      obtain ⟨rfl, rfl⟩ := Prod.mk.injEq .. ▸ Option.some.injEq .. ▸ h
      refine ⟨le_refl _, by omega, fun i h1 h2 => by omega, ?_, rfl⟩
      intro hc
      exact hd (by rw [hc, Nat.xor_self])

/-- `compareLen` decomposes as `8 * moff + mod` for the `moff` and `mod`
computed inside `Critbit`. -/
theorem compareLen_decomp (a b : Key) :
    compareLen a b =
      8 * (if a.Nbits >>> 3 < b.Nbits >>> 3 then a.Nbits >>> 3 else b.Nbits >>> 3) +
        (if a.Nbits >>> 3 < b.Nbits >>> 3 then a.Nbits &&& 7 else b.Nbits &&& 7) := by
  unfold compareLen
  split
  · rw [shiftRight3_eq, and7_eq]; omega
  · rw [shiftRight3_eq, and7_eq]; omega

theorem min_le_compareLen (a b : Key) : min a.Nbits b.Nbits ≤ compareLen a b := by
  unfold compareLen
  rw [shiftRight3_eq, shiftRight3_eq]
  split
  · rename_i h
    have h8a := Nat.div_add_mod a.Nbits 8
    have h8b := Nat.div_add_mod b.Nbits 8
    have hma : a.Nbits % 8 < 8 := Nat.mod_lt _ (by norm_num)
    omega
  · omega

theorem compareLen_le_max (a b : Key) : compareLen a b ≤ max a.Nbits b.Nbits := by
  unfold compareLen
  split <;> omega

theorem Key.byteAt_def (a : Key) (i : Nat) : a.byteAt i = a.Data.getD i 0 := rfl

theorem Key.ebit_of_ge {a : Key} {j : Nat} (h : a.Nbits ≤ j) : a.ebit j = false := by
  unfold Key.ebit
  rw [if_neg (by omega)]

/-- Auxiliary master lemma for `Key.Critbit`: with the loop parameters
`moff`/`mod` abstracted, the result is either the `-1` sentinel with the
keys bitwise identical, or a DATA_DIFF ordinal `2*s+1` at the first
position `s` (within the examined range) where the zero-extended bit views
differ, or a LENGTH_DIFF ordinal `2 * min` with the examined range in
agreement. -/
theorem critbit_main_aux (a b : Key) (ha : a.WF) (hb : b.WF) (moff mod : Nat)
    (hm8 : mod < 8) (hcp : compareLen a b = 8 * moff + mod)
    (hclen_eq : a.Nbits = b.Nbits → 8 * moff + mod = b.Nbits)
    (hres : a.Critbit b =
      (match critbitLoop a.Data b.Data 0 moff with
       | some (o, m) => Int.ofNat ((o <<< 4) ||| (m <<< 1) ||| 1)
       | none =>
         if mod > 0 then
           if ((a.Data.getD moff 0) ^^^ (b.Data.getD moff 0)) &&& maskTop mod ≠ 0 then
             Int.ofNat ((moff <<< 4) |||
               (leadingZeros8 (((a.Data.getD moff 0) ^^^ (b.Data.getD moff 0)) &&& maskTop mod) <<< 1) ||| 1)
           else a.critbitTail b
         else a.critbitTail b)) :
    (a.Critbit b = -1 ∧ a.Nbits = b.Nbits ∧ ∀ j, a.ebit j = b.ebit j) ∨
    (∃ s, a.Critbit b = Int.ofNat (2 * s + 1) ∧ s < compareLen a b ∧
      a.ebit s ≠ b.ebit s ∧ ∀ i < s, a.ebit i = b.ebit i) ∨
    (a.Critbit b = Int.ofNat (2 * min a.Nbits b.Nbits) ∧ a.Nbits ≠ b.Nbits ∧
      ∀ i < compareLen a b, a.ebit i = b.ebit i) := by
  have tail_case : (∀ p < 8 * moff + mod, a.ebit p = b.ebit p) →
      a.Critbit b = a.critbitTail b →
      (a.Critbit b = -1 ∧ a.Nbits = b.Nbits ∧ ∀ j, a.ebit j = b.ebit j) ∨
      (∃ s, a.Critbit b = Int.ofNat (2 * s + 1) ∧ s < compareLen a b ∧
        a.ebit s ≠ b.ebit s ∧ ∀ i < s, a.ebit i = b.ebit i) ∨
      (a.Critbit b = Int.ofNat (2 * min a.Nbits b.Nbits) ∧ a.Nbits ≠ b.Nbits ∧
        ∀ i < compareLen a b, a.ebit i = b.ebit i) := by
    intro hagree htail
    unfold Key.critbitTail at htail
    by_cases hnb : a.Nbits = b.Nbits
    · rw [if_pos hnb] at htail
      left
      refine ⟨htail, hnb, ?_⟩
      intro j
      rcases Nat.lt_or_ge j (8 * moff + mod) with hj | hj
      · exact hagree j hj
      · have h1 : a.ebit j = false := Key.ebit_of_ge (by have := hclen_eq hnb; omega)
        have h2 : b.ebit j = false := Key.ebit_of_ge (by have := hclen_eq hnb; omega)
        rw [h1, h2]
    · rw [if_neg hnb] at htail
      right; right
      refine ⟨?_, hnb, ?_⟩
      · rcases Nat.lt_or_ge a.Nbits b.Nbits with hab | hab
        · rw [if_pos hab] at htail
          rw [htail, shiftLeft1_eq]
          congr 1
          omega
        · rw [if_neg (by omega)] at htail
          rw [htail, shiftLeft1_eq]
          congr 1
          omega
      · intro i hi
        exact hagree i (by omega)
  have hbytes_agree : ∀ n, (∀ i < n, a.Data.getD i 0 = b.Data.getD i 0) →
      ∀ p < 8 * n, a.ebit p = b.ebit p := by
    intro n hbytes p hp
    rw [Key.ebit_eq_raw ha, Key.ebit_eq_raw hb, Key.byteAt_def, Key.byteAt_def,
      hbytes (p / 8) (by omega)]
  rcases hcl : critbitLoop a.Data b.Data 0 moff with _ | ⟨o, m⟩
  · -- no full-byte difference
    simp only [hcl] at hres
    have hbyteeq := critbitLoop_none hcl
    by_cases hmod0 : mod > 0
    · rw [if_pos hmod0] at hres
      by_cases hdz : ((a.Data.getD moff 0) ^^^ (b.Data.getD moff 0)) &&& maskTop mod = 0
      · rw [if_neg (by simpa using hdz)] at hres
        apply tail_case _ hres
        intro p hp
        rcases Nat.lt_or_ge p (8 * moff) with hp8 | hp8
        · exact hbytes_agree moff (fun i hi => hbyteeq i (by omega) (by omega)) p hp8
        · have hpdiv : p / 8 = moff := by omega
          have hpmod : p % 8 < mod := by omega
          rw [Key.ebit_eq_raw ha, Key.ebit_eq_raw hb, Key.byteAt_def, Key.byteAt_def, hpdiv]
          have hbit0 : getBit (((a.Data.getD moff 0) ^^^ (b.Data.getD moff 0)) &&& maskTop mod) (p % 8) = false := by
            rw [hdz, getBit_zero]
          rw [getBit_and, getBit_xor] at hbit0
          have hmask : getBit (maskTop mod) (p % 8) = true := by
            rw [maskTop_spec mod hm8 (p % 8) (by omega)]
            simp [hpmod]
          rw [hmask, Bool.and_true] at hbit0
          exact (bxor_eq_false_iff _ _).mp hbit0
      · rw [if_pos (by simpa using hdz)] at hres
        right; left
        set d := ((a.Data.getD moff 0) ^^^ (b.Data.getD moff 0)) &&& maskTop mod with hd
        have hd256 : d < 256 := lt_of_le_of_lt Nat.and_le_right (maskTop_lt mod)
        obtain ⟨hm8', hmbit, hmbelow⟩ := leadingZeros8_spec d hd256 hdz
        have hmaskm : getBit (maskTop mod) (leadingZeros8 d) = true := by
          have := hmbit
          rw [hd, getBit_and] at this
          exact (Bool.and_eq_true_iff.mp this).2
        have hmmod : leadingZeros8 d < mod := by
          have := maskTop_spec mod hm8 (leadingZeros8 d) (by omega)
          rw [this] at hmaskm
          simpa using hmaskm
        refine ⟨8 * moff + leadingZeros8 d, ?_, ?_, ?_, ?_⟩
        · rw [hres, encode_data_eq moff (leadingZeros8 d) (by omega)]
        · omega
        · have hpdiv : (8 * moff + leadingZeros8 d) / 8 = moff := by omega
          have hpmod : (8 * moff + leadingZeros8 d) % 8 = leadingZeros8 d := by omega
          rw [Key.ebit_eq_raw ha, Key.ebit_eq_raw hb, Key.byteAt_def, Key.byteAt_def,
            hpdiv, hpmod]
          have hxor : getBit ((a.Data.getD moff 0) ^^^ (b.Data.getD moff 0)) (leadingZeros8 d) = true := by
            have := hmbit
            rw [hd, getBit_and] at this
            exact (Bool.and_eq_true_iff.mp this).1
          rw [getBit_xor] at hxor
          exact (bxor_eq_true_iff _ _).mp hxor
        · intro i hi
          rcases Nat.lt_or_ge i (8 * moff) with hi8 | hi8
          · exact hbytes_agree moff (fun j hj => hbyteeq j (by omega) (by omega)) i hi8
          · have hidiv : i / 8 = moff := by omega
            have himod : i % 8 < leadingZeros8 d := by omega
            rw [Key.ebit_eq_raw ha, Key.ebit_eq_raw hb, Key.byteAt_def, Key.byteAt_def, hidiv]
            have hbit0 := hmbelow (i % 8) himod
            rw [hd, getBit_and, getBit_xor] at hbit0
            have hmask : getBit (maskTop mod) (i % 8) = true := by
              rw [maskTop_spec mod hm8 (i % 8) (by omega)]
              simp
              omega
            rw [hmask, Bool.and_true] at hbit0
            exact (bxor_eq_false_iff _ _).mp hbit0
    · rw [if_neg hmod0] at hres
      apply tail_case _ hres
      intro p hp
      have hmod0' : mod = 0 := by omega
      exact hbytes_agree moff (fun i hi => hbyteeq i (by omega) (by omega)) p (by omega)
  · -- a differing full byte
    simp only [hcl] at hres
    obtain ⟨-, ho, hbelow, hne, hm⟩ := critbitLoop_some hcl
    right; left
    set d := (a.Data.getD o 0) ^^^ (b.Data.getD o 0) with hd
    have hdne : d ≠ 0 := fun hc => hne (Nat.xor_eq_zero.mp hc)
    have hd256 : d < 256 :=
      byte_lt_of_xor (Key.byteAt_def a o ▸ Key.byteAt_lt ha o)
        (Key.byteAt_def b o ▸ Key.byteAt_lt hb o)
    obtain ⟨hm8', hmbit, hmbelow⟩ := leadingZeros8_spec d hd256 hdne
    refine ⟨8 * o + m, ?_, ?_, ?_, ?_⟩
    · rw [hres, encode_data_eq o m (by omega)]
    · omega
    · have hpdiv : (8 * o + m) / 8 = o := by omega
      have hpmod : (8 * o + m) % 8 = m := by omega
      rw [Key.ebit_eq_raw ha, Key.ebit_eq_raw hb, Key.byteAt_def, Key.byteAt_def,
        hpdiv, hpmod, hm]
      have hx : (getBit (a.Data.getD o 0) (leadingZeros8 d)).xor
          (getBit (b.Data.getD o 0) (leadingZeros8 d)) = true := by
        rw [← getBit_xor]
        exact hmbit
      exact (bxor_eq_true_iff _ _).mp hx
    · intro i hi
      rcases Nat.lt_or_ge i (8 * o) with hi8 | hi8
      · exact hbytes_agree o (fun j hj => hbelow j (by omega) (by omega)) i hi8
      · have hidiv : i / 8 = o := by omega
        have himod : i % 8 < m := by omega
        rw [Key.ebit_eq_raw ha, Key.ebit_eq_raw hb, Key.byteAt_def, Key.byteAt_def, hidiv]
        have hbit0 : getBit ((a.Data.getD o 0) ^^^ (b.Data.getD o 0)) (i % 8) = false :=
          hmbelow (i % 8) (hm ▸ himod)
        rw [getBit_xor] at hbit0
        exact (bxor_eq_false_iff _ _).mp hbit0

/-- Trichotomy for `Key.Critbit` on well-formed keys: the `-1` sentinel
with bitwise-identical keys, a DATA_DIFF ordinal at the first differing
examined position, or a LENGTH_DIFF ordinal with the examined range in
agreement. -/
theorem Key.critbit_cases (a b : Key) (ha : a.WF) (hb : b.WF) :
    (a.Critbit b = -1 ∧ a.Nbits = b.Nbits ∧ ∀ j, a.ebit j = b.ebit j) ∨
    (∃ s, a.Critbit b = Int.ofNat (2 * s + 1) ∧ s < compareLen a b ∧
      a.ebit s ≠ b.ebit s ∧ ∀ i < s, a.ebit i = b.ebit i) ∨
    (a.Critbit b = Int.ofNat (2 * min a.Nbits b.Nbits) ∧ a.Nbits ≠ b.Nbits ∧
      ∀ i < compareLen a b, a.ebit i = b.ebit i) := by
  by_cases hko : a.Nbits >>> 3 < b.Nbits >>> 3
  · apply critbit_main_aux a b ha hb (a.Nbits >>> 3) (a.Nbits &&& 7)
    · rw [and7_eq]; exact Nat.mod_lt _ (by norm_num)
    · rw [compareLen_decomp, if_pos hko, if_pos hko]
    · intro hnb
      rw [hnb] at hko
      exact absurd hko (Nat.lt_irrefl _)
    · simp only [Key.Critbit, if_pos hko]
  · apply critbit_main_aux a b ha hb (b.Nbits >>> 3) (b.Nbits &&& 7)
    · rw [and7_eq]; exact Nat.mod_lt _ (by norm_num)
    · rw [compareLen_decomp, if_neg hko, if_neg hko]
    · intro _
      rw [shiftRight3_eq, and7_eq]
      omega
    · simp only [Key.Critbit, if_neg hko]

/-- The `-1` sentinel of `Critbit` means the keys agree in bit length and
in every (zero-extended) bit. -/
theorem Key.critbit_neg1 {a b : Key} (ha : a.WF) (hb : b.WF)
    (h : a.Critbit b = -1) : a.Nbits = b.Nbits ∧ ∀ j, a.ebit j = b.ebit j := by
  rcases Key.critbit_cases a b ha hb with ⟨_, h1, h2⟩ | ⟨s, hs, _⟩ | ⟨hs, _⟩
  · exact ⟨h1, h2⟩
  · rw [h] at hs; cases hs
  · rw [h] at hs; cases hs

/-- An odd `Critbit` ordinal `e` marks the first examined position
`e >>> 1` at which the two bit views differ. -/
theorem Key.critbit_odd {a b : Key} {e : Nat} (ha : a.WF) (hb : b.WF)
    (h : a.Critbit b = Int.ofNat e) (hodd : e % 2 = 1) :
    e >>> 1 < compareLen a b ∧ a.ebit (e >>> 1) ≠ b.ebit (e >>> 1) ∧
      ∀ i < e >>> 1, a.ebit i = b.ebit i := by
  rcases Key.critbit_cases a b ha hb with ⟨h1, _, _⟩ | ⟨s, hs, h2, h3, h4⟩ | ⟨hs, _⟩
  · rw [h] at h1; cases h1
  · rw [h] at hs
    have he : e = 2 * s + 1 := Int.ofNat.inj hs
    have hse : e >>> 1 = s := by rw [shiftRight1_eq]; omega
    rw [hse]
    exact ⟨h2, h3, h4⟩
  · rw [h] at hs
    have he : e = 2 * min a.Nbits b.Nbits := Int.ofNat.inj hs
    omega

/-- An even `Critbit` ordinal is the LENGTH_DIFF encoding `2 * min` with
all examined positions in agreement. -/
theorem Key.critbit_even {a b : Key} {e : Nat} (ha : a.WF) (hb : b.WF)
    (h : a.Critbit b = Int.ofNat e) (heven : e % 2 = 0) :
    e = 2 * min a.Nbits b.Nbits ∧ a.Nbits ≠ b.Nbits ∧
      ∀ i < compareLen a b, a.ebit i = b.ebit i := by
  rcases Key.critbit_cases a b ha hb with ⟨h1, _, _⟩ | ⟨s, hs, _, _, _⟩ | ⟨hs, h2, h3⟩
  · rw [h] at h1; cases h1
  · rw [h] at hs
    have he : e = 2 * s + 1 := Int.ofNat.inj hs
    omega
  · rw [h] at hs
    have he : e = 2 * min a.Nbits b.Nbits := Int.ofNat.inj hs
    exact ⟨he, h2, h3⟩

/-- Below the position of any non-sentinel `Critbit` ordinal, the two bit
views agree. -/
theorem Key.critbit_agree_below {a b : Key} {e : Nat} (ha : a.WF) (hb : b.WF)
    (h : a.Critbit b = Int.ofNat e) :
    ∀ i < e >>> 1, a.ebit i = b.ebit i := by
  rcases Nat.mod_two_eq_zero_or_one e with hpar | hpar
  · obtain ⟨he, _, h3⟩ := Key.critbit_even ha hb h hpar
    intro i hi
    apply h3
    have := min_le_compareLen a b
    rw [shiftRight1_eq] at hi
    omega
  · obtain ⟨_, _, h3⟩ := Key.critbit_odd ha hb h hpar
    exact h3

theorem and_two_pow_ne_zero (x i : Nat) : x &&& 2 ^ i ≠ 0 ↔ x.testBit i = true := by
  constructor
  · intro h
    by_contra hx
    apply h
    apply Nat.eq_of_testBit_eq
    intro j
    rw [Nat.testBit_and, Nat.zero_testBit, Nat.testBit_two_pow]
    by_cases hj : i = j
    · subst hj
      simp [Bool.eq_false_iff.mpr hx]
    · simp [hj]
  · intro h hc
    have h0 : (x &&& 2 ^ i).testBit i = false := by rw [hc]; exact Nat.zero_testBit i
    rw [Nat.testBit_and, Nat.testBit_two_pow] at h0
    simp [h] at h0

/-- The branch test of `Direction` fires exactly on set (zero-extended)
bits of a well-formed key. -/
theorem Key.direction_cond {k : Key} (hk : k.WF) (cbit : Nat) :
    ((cbit >>> 3 < (k.Nbits + 7) >>> 3 ∧
        (k.byteAt (cbit >>> 3)) &&& (128 >>> (cbit &&& 7)) ≠ 0) ↔
      k.ebit cbit = true) := by
  have hm8 : cbit % 8 < 8 := Nat.mod_lt _ (by norm_num)
  have hshift : (128 : Nat) >>> (cbit &&& 7) = 2 ^ (7 - cbit % 8) := by
    rw [and7_eq, Nat.shiftRight_eq_div_pow]
    have h128 : (128 : Nat) = 2 ^ 7 := by norm_num
    rw [h128, Nat.pow_div (by omega) (by norm_num)]
  rw [hshift, shiftRight3_eq, shiftRight3_eq, and_two_pow_ne_zero]
  have hgb : (k.byteAt (cbit / 8)).testBit (7 - cbit % 8) = getBit (k.byteAt (cbit / 8)) (cbit % 8) := rfl
  rw [hgb]
  constructor
  · rintro ⟨hco, hbit⟩
    unfold Key.ebit
    split
    · exact hbit
    · rename_i hge
      push_neg at hge
      have hlen : (k.Nbits + 7) / 8 ≤ k.Data.length := by
        have := hk.1
        omega
      have hcl : cbit < 8 * k.Data.length := by omega
      have := hk.2.2 cbit hcl hge
      unfold Key.bitAt at this
      rw [this] at hbit
      cases hbit
  · intro he
    unfold Key.ebit at he
    by_cases hlt : cbit < k.Nbits
    · rw [if_pos hlt] at he
      refine ⟨by omega, ?_⟩
      unfold Key.bitAt at he
      exact he
    · rw [if_neg hlt] at he
      cases he

/-- `Direction` at an odd (DATA_DIFF) ordinal follows the key's bit at the
decoded position. -/
theorem Key.direction_odd {k : Key} {e : Nat} (hk : k.WF) (hodd : e % 2 = 1) :
    k.Direction e = if k.ebit (e >>> 1) then 1 else 0 := by
  unfold Key.Direction
  have hcond := Key.direction_cond hk (e >>> 1)
  by_cases hb : k.ebit (e >>> 1) = true
  · rw [if_pos (hcond.mpr hb), if_pos hb]
  · rw [if_neg (fun hc => hb (hcond.mp hc))]
    have h1 : e &&& 1 ≠ 0 := by
      rw [Nat.and_one_is_mod]
      omega
    rw [if_pos h1, if_neg (by simpa using hb)]

/-- `Direction` at an even (LENGTH_DIFF) ordinal tests whether the key
extends past the decoded position. -/
theorem Key.direction_even {k : Key} {e : Nat} (hk : k.WF) (heven : e % 2 = 0) :
    k.Direction e = if e >>> 1 < k.Nbits then 1 else 0 := by
  unfold Key.Direction
  have hcond := Key.direction_cond hk (e >>> 1)
  have h1 : ¬ (e &&& 1 ≠ 0) := by
    rw [Nat.and_one_is_mod]
    omega
  by_cases hb : k.ebit (e >>> 1) = true
  · rw [if_pos (hcond.mpr hb)]
    have : e >>> 1 < k.Nbits := by
      unfold Key.ebit at hb
      by_contra hc
      rw [if_neg hc] at hb
      cases hb
    rw [if_pos this]
  · rw [if_neg (fun hc => hb (hcond.mp hc)), if_neg h1]

/-- A key never extends past an even ordinal at its own length: its
direction there is 0.  In particular `Direction` at ordinal `2 * Nbits`
routes the key itself to the left. -/
theorem Key.direction_at_own_length {k : Key} (hk : k.WF) :
    k.Direction (2 * k.Nbits) = 0 := by
  rw [Key.direction_even hk (by omega), shiftRight1_eq]
  rw [if_neg (by omega)]

theorem Key.Equal_refl (k : Key) : k.Equal k = true := by
  simp [Key.Equal]

/-- `Equal` is structural equality of keys. -/
theorem Key.Equal_iff_eq {a b : Key} : a.Equal b = true ↔ a = b := by
  unfold Key.Equal
  constructor
  · intro h
    have h1 := (Bool.and_eq_true_iff.mp h).1
    have h2 := (Bool.and_eq_true_iff.mp h).2
    cases a; cases b
    simp only [beq_iff_eq] at h1 h2
    simp_all
  · rintro rfl
    exact Key.Equal_refl a

/-- Canonical keys are determined by their length and bit content. -/
theorem Key.eq_of_canon_bits {a b : Key} (ha : a.Canon) (hb : b.Canon)
    (hn : a.Nbits = b.Nbits) (he : ∀ j, a.ebit j = b.ebit j) : a = b := by
  obtain ⟨haw, hal⟩ := ha
  obtain ⟨hbw, hbl⟩ := hb
  have hlen : a.Data.length = b.Data.length := by rw [hal, hbl, hn]
  have hdata : a.Data = b.Data := by
    apply List.ext_getElem hlen
    intro i h1 h2
    have hb1 : a.Data[i] < 256 := haw.2.1 _ (List.getElem_mem h1)
    have hb2 : b.Data[i] < 256 := hbw.2.1 _ (List.getElem_mem h2)
    apply byte_eq_of_getBit_eq hb1 hb2
    intro j hj
    have hia : a.Data[i] = a.byteAt i := by
      rw [Key.byteAt_def, List.getD_eq_getElem _ _ h1]
    have hib : b.Data[i] = b.byteAt i := by
      rw [Key.byteAt_def, List.getD_eq_getElem _ _ h2]
    rw [hia, hib]
    have hdiv : (8 * i + j) / 8 = i := by omega
    have hmod : (8 * i + j) % 8 = j := by omega
    have h1' := Key.ebit_eq_raw haw (8 * i + j)
    have h2' := Key.ebit_eq_raw hbw (8 * i + j)
    rw [hdiv, hmod] at h1' h2'
    rw [← h1', ← h2']
    exact he (8 * i + j)
  cases a; cases b
  simp_all

/-! ## Structural lemmas on nodes -/

namespace Node

variable {V : Type}

theorem findLeaf_inner (bit : Nat) (l r : Node V) (key : Key) :
    (Node.inner bit l r).findLeaf key =
      if key.Direction bit == 1 then r.findLeaf key else l.findLeaf key := rfl

theorem replaceValue_inner (bit : Nat) (l r : Node V) (key : Key) (val : V) :
    (Node.inner bit l r).replaceValue key val =
      if key.Direction bit == 1 then Node.inner bit l (r.replaceValue key val)
      else Node.inner bit (l.replaceValue key val) r := rfl

theorem insertAt_inner (ibit : Nat) (l r : Node V) (key : Key) (val : V) (bit : Nat) :
    (Node.inner ibit l r).insertAt key val bit =
      if ibit > bit then (Node.inner ibit l r).splice key val bit
      else if key.Direction ibit == 1 then Node.inner ibit l (r.insertAt key val bit)
      else Node.inner ibit (l.insertAt key val bit) r := rfl

theorem insertAt_base (n : Node V) (key : Key) (val : V) (bit : Nat)
    (h : ∀ ibit l r, n ≠ Node.inner ibit l r) :
    n.insertAt key val bit = n.splice key val bit := by
  cases n with
  | empty => rfl
  | leaf k v => rfl
  | inner ibit l r => exact absurd rfl (h ibit l r)

theorem delete_inner (bit : Nat) (l r : Node V) (key : Key) :
    (Node.inner bit l r).delete key =
      (if key.Direction bit == 1 then
        match r.delete key with
        | none => none
        | some .empty => some l
        | some r' => some (Node.inner bit l r')
      else
        match l.delete key with
        | none => none
        | some .empty => some r
        | some l' => some (Node.inner bit l' r)) := rfl

theorem leavesDir_zero_inner (bit : Nat) (l r : Node V) :
    (Node.inner bit l r).leavesDir 0 = l.leavesDir 0 ++ r.leavesDir 0 := rfl

theorem splice_eq (n : Node V) (key : Key) (val : V) (bit : Nat) :
    n.splice key val bit =
      if key.Direction bit == 1 then Node.inner bit n (.leaf key val)
      else Node.inner bit (.leaf key val) n := rfl

theorem Longest_inner (bit : Nat) (l r : Node V) (key : Key) :
    (Node.inner bit l r).Longest key =
      (if key.Direction bit == 1 then
        match r.Longest key with
        | some v => some v
        | none => l.Longest key
      else l.Longest key) := rfl

theorem findLeaf_empty_iff {n : Node V} (hne : n.NE) (key : Key) :
    n.findLeaf key = none ↔ n = .empty := by
  induction n with
  | empty => simp [findLeaf]
  | leaf k v => simp [findLeaf]
  | inner bit l r ihl ihr =>
    obtain ⟨hl, hr, hnl, hnr⟩ := hne
    rw [findLeaf_inner]
    constructor
    · intro h
      split at h
      · exact absurd ((ihr hnr).mp h) hr
      · exact absurd ((ihl hnl).mp h) hl
    · intro h
      cases h

theorem findLeaf_mem {n : Node V} {key : Key} {lf : Key × V}
    (h : n.findLeaf key = some lf) : lf ∈ n.leavesDir 0 := by
  induction n with
  | empty => cases h
  | leaf k v =>
    unfold findLeaf at h
    injection h with h
    simp [leavesDir, h.symm]
  | inner bit l r ihl ihr =>
    rw [findLeaf_inner] at h
    rw [leavesDir_zero_inner]
    rw [List.mem_append]
    split at h
    · exact Or.inr (ihr h)
    · exact Or.inl (ihl h)

theorem findLeaf_splice (n : Node V) (key : Key) (val : V) (bit : Nat) :
    (n.splice key val bit).findLeaf key = some (key, val) := by
  rw [splice_eq]
  by_cases hd : (key.Direction bit == 1) = true
  · rw [if_pos hd, findLeaf_inner, if_pos hd]
    rfl
  · rw [if_neg hd, findLeaf_inner, if_neg hd]
    rfl

theorem findLeaf_insertAt (n : Node V) (key : Key) (val : V) (bit : Nat) :
    (n.insertAt key val bit).findLeaf key = some (key, val) := by
  induction n with
  | empty => exact findLeaf_splice _ _ _ _
  | leaf k v => exact findLeaf_splice _ _ _ _
  | inner ibit l r ihl ihr =>
    rw [insertAt_inner]
    by_cases hgt : ibit > bit
    · rw [if_pos hgt]
      exact findLeaf_splice _ _ _ _
    · rw [if_neg hgt]
      by_cases hd : (key.Direction ibit == 1) = true
      · rw [if_pos hd, findLeaf_inner, if_pos hd]
        exact ihr
      · rw [if_neg hd, findLeaf_inner, if_neg hd]
        exact ihl

theorem leafCount_splice (n : Node V) (key : Key) (val : V) (bit : Nat) :
    (n.splice key val bit).leafCount = n.leafCount + 1 := by
  rw [splice_eq]
  split <;> simp [leafCount] <;> omega

theorem leafCount_insertAt (n : Node V) (key : Key) (val : V) (bit : Nat) :
    (n.insertAt key val bit).leafCount = n.leafCount + 1 := by
  induction n with
  | empty => exact leafCount_splice _ _ _ _
  | leaf k v => exact leafCount_splice _ _ _ _
  | inner ibit l r ihl ihr =>
    rw [insertAt_inner]
    by_cases hgt : ibit > bit
    · rw [if_pos hgt]
      exact leafCount_splice _ _ _ _
    · rw [if_neg hgt]
      split
      · simp [leafCount, ihr]
        omega
      · simp [leafCount, ihl]
        omega

theorem mem_leaves_splice {n : Node V} {key : Key} {val : V} {bit : Nat}
    {lf : Key × V} (h : lf ∈ (n.splice key val bit).leavesDir 0) :
    lf ∈ n.leavesDir 0 ∨ lf = (key, val) := by
  rw [splice_eq] at h
  split at h <;> rw [leavesDir_zero_inner] at h <;>
    rcases List.mem_append.mp h with h' | h'
  · exact Or.inl h'
  · right; simpa [leavesDir] using h'
  · right; simpa [leavesDir] using h'
  · exact Or.inl h'

theorem mem_leaves_insertAt {n : Node V} {key : Key} {val : V} {bit : Nat}
    {lf : Key × V} (h : lf ∈ (n.insertAt key val bit).leavesDir 0) :
    lf ∈ n.leavesDir 0 ∨ lf = (key, val) := by
  induction n with
  | empty => exact mem_leaves_splice h
  | leaf k v => exact mem_leaves_splice h
  | inner ibit l r ihl ihr =>
    rw [insertAt_inner] at h
    by_cases hgt : ibit > bit
    · rw [if_pos hgt] at h
      exact mem_leaves_splice h
    · rw [if_neg hgt] at h
      split at h <;> rw [leavesDir_zero_inner] at h <;>
        rcases List.mem_append.mp h with h' | h'
      · exact Or.inl (by rw [leavesDir_zero_inner, List.mem_append]; exact Or.inl h')
      · rcases ihr h' with h2 | h2
        · exact Or.inl (by rw [leavesDir_zero_inner, List.mem_append]; exact Or.inr h2)
        · exact Or.inr h2
      · rcases ihl h' with h2 | h2
        · exact Or.inl (by rw [leavesDir_zero_inner, List.mem_append]; exact Or.inl h2)
        · exact Or.inr h2
      · exact Or.inl (by rw [leavesDir_zero_inner, List.mem_append]; exact Or.inr h')

theorem splice_ne_empty (n : Node V) (key : Key) (val : V) (bit : Nat) :
    n.splice key val bit ≠ .empty := by
  rw [splice_eq]
  split <;> simp

theorem insertAt_ne_empty (n : Node V) (key : Key) (val : V) (bit : Nat) :
    n.insertAt key val bit ≠ .empty := by
  cases n with
  | empty => exact splice_ne_empty _ _ _ _
  | leaf k v => exact splice_ne_empty _ _ _ _
  | inner ibit l r =>
    rw [insertAt_inner]
    split
    · exact splice_ne_empty _ _ _ _
    · split <;> simp

theorem NE_splice {n : Node V} (hne : n.NE) (hnem : n ≠ .empty)
    (key : Key) (val : V) (bit : Nat) : (n.splice key val bit).NE := by
  rw [splice_eq]
  split
  · exact ⟨hnem, by simp, hne, trivial⟩
  · exact ⟨by simp, hnem, trivial, hne⟩

theorem NE_insertAt {n : Node V} (hne : n.NE) (hnem : n ≠ .empty)
    (key : Key) (val : V) (bit : Nat) : (n.insertAt key val bit).NE := by
  induction n with
  | empty => exact absurd rfl hnem
  | leaf k v => exact NE_splice (n := Node.leaf k v) trivial (by simp) key val bit
  | inner ibit l r ihl ihr =>
    obtain ⟨hl, hr, hnl, hnr⟩ := hne
    rw [insertAt_inner]
    by_cases hgt : ibit > bit
    · rw [if_pos hgt]
      exact NE_splice (n := Node.inner ibit l r) ⟨hl, hr, hnl, hnr⟩ (by simp) key val bit
    · rw [if_neg hgt]
      split
      · exact ⟨hl, insertAt_ne_empty r key val bit, hnl, ihr hnr hr⟩
      · exact ⟨insertAt_ne_empty l key val bit, hr, ihl hnl hl, hnr⟩

theorem findLeaf_replaceValue (n : Node V) (key : Key) (val : V) :
    (n.replaceValue key val).findLeaf key =
      (n.findLeaf key).map (fun lf => (lf.1, val)) := by
  induction n with
  | empty => rfl
  | leaf k v => rfl
  | inner bit l r ihl ihr =>
    by_cases hd : (key.Direction bit == 1) = true
    · rw [replaceValue_inner, if_pos hd]
      rw [findLeaf_inner, if_pos hd]
      rw [findLeaf_inner, if_pos hd]
      exact ihr
    · rw [replaceValue_inner, if_neg hd]
      rw [findLeaf_inner, if_neg hd]
      rw [findLeaf_inner, if_neg hd]
      exact ihl

theorem leafCount_replaceValue (n : Node V) (key : Key) (val : V) :
    (n.replaceValue key val).leafCount = n.leafCount := by
  induction n with
  | empty => rfl
  | leaf k v => rfl
  | inner bit l r ihl ihr =>
    rw [replaceValue_inner]
    split <;> simp [leafCount, ihl, ihr]

theorem keys_replaceValue (n : Node V) (key : Key) (val : V) :
    ((n.replaceValue key val).leavesDir 0).map Prod.fst =
      (n.leavesDir 0).map Prod.fst := by
  induction n with
  | empty => rfl
  | leaf k v => rfl
  | inner bit l r ihl ihr =>
    rw [replaceValue_inner]
    split <;> rw [leavesDir_zero_inner, leavesDir_zero_inner] <;>
      simp [ihl, ihr]

theorem mem_leaves_replaceValue {n : Node V} {key : Key} {val : V} {lf : Key × V}
    (h : lf ∈ (n.replaceValue key val).leavesDir 0) :
    ∃ v', (lf.1, v') ∈ n.leavesDir 0 := by
  induction n with
  | empty => cases h
  | leaf k v =>
    simp [replaceValue, leavesDir] at h
    exact ⟨v, by simp [leavesDir, h]⟩
  | inner bit l r ihl ihr =>
    rw [replaceValue_inner] at h
    split at h <;> rw [leavesDir_zero_inner] at h <;>
      rcases List.mem_append.mp h with h' | h'
    · exact ⟨lf.2, by rw [leavesDir_zero_inner, List.mem_append]; exact Or.inl (by simpa using h')⟩
    · obtain ⟨v', hv'⟩ := ihr h'
      exact ⟨v', by rw [leavesDir_zero_inner, List.mem_append]; exact Or.inr hv'⟩
    · obtain ⟨v', hv'⟩ := ihl h'
      exact ⟨v', by rw [leavesDir_zero_inner, List.mem_append]; exact Or.inl hv'⟩
    · exact ⟨lf.2, by rw [leavesDir_zero_inner, List.mem_append]; exact Or.inr (by simpa using h')⟩

theorem replaceValue_empty_iff {n : Node V} (key : Key) (val : V) :
    n.replaceValue key val = .empty ↔ n = .empty := by
  cases n with
  | empty => simp [replaceValue]
  | leaf k v => simp [replaceValue]
  | inner bit l r =>
    rw [replaceValue_inner]
    split <;> simp

theorem NE_replaceValue {n : Node V} (hne : n.NE) (key : Key) (val : V) :
    (n.replaceValue key val).NE := by
  induction n with
  | empty => trivial
  | leaf k v => trivial
  | inner bit l r ihl ihr =>
    obtain ⟨hl, hr, hnl, hnr⟩ := hne
    rw [replaceValue_inner]
    split
    · exact ⟨hl, fun hc => hr ((replaceValue_empty_iff key val).mp hc), hnl, ihr hnr⟩
    · exact ⟨fun hc => hl ((replaceValue_empty_iff key val).mp hc), hr, ihl hnl, hnr⟩

theorem delete_none {n : Node V} {key : Key}
    (h : ∀ lf ∈ n.leavesDir 0, lf.1.Equal key = false) : n.delete key = none := by
  induction n with
  | empty => rfl
  | leaf k v =>
    unfold delete
    rw [if_neg]
    have := h (k, v) (by simp [leavesDir])
    simp [this]
  | inner bit l r ihl ihr =>
    have hle : ∀ lf ∈ l.leavesDir 0, lf.1.Equal key = false := fun lf hlf =>
      h lf (by rw [leavesDir_zero_inner, List.mem_append]; exact Or.inl hlf)
    have hre : ∀ lf ∈ r.leavesDir 0, lf.1.Equal key = false := fun lf hlf =>
      h lf (by rw [leavesDir_zero_inner, List.mem_append]; exact Or.inr hlf)
    rw [delete_inner]
    split
    · rw [ihr hre]
    · rw [ihl hle]

/-- Removing a present key deletes exactly one leaf, in place, from the
in-order leaf sequence. -/
theorem delete_leaves {n : Node V} {key : Key} {m : Node V} (hne : n.NE)
    (h : n.delete key = some m) :
    ∃ p s lf, n.leavesDir 0 = p ++ lf :: s ∧ m.leavesDir 0 = p ++ s ∧
      lf.1.Equal key = true := by
  induction n generalizing m with
  | empty => cases h
  | leaf k v =>
    unfold delete at h
    split at h
    · rename_i heq
      injection h with h
      exact ⟨[], [], (k, v), by simp [leavesDir], by simp [← h, leavesDir], heq⟩
    · cases h
  | inner bit l r ihl ihr =>
    obtain ⟨hl, hr, hnl, hnr⟩ := hne
    rw [delete_inner] at h
    split at h
    · rcases hdel : r.delete key with _ | m'
      · rw [hdel] at h; cases h
      · rw [hdel] at h
        obtain ⟨p, s, lf, h1, h2, h3⟩ := ihr hnr hdel
        cases m' with
        | empty =>
          injection h with h
          simp only [leavesDir] at h2
          obtain ⟨hp, hs⟩ := List.append_eq_nil.mp h2.symm
          subst hp hs
          refine ⟨l.leavesDir 0, [], lf, ?_, ?_, h3⟩
          · rw [leavesDir_zero_inner, h1]
            simp
          · rw [← h]
            simp
        | leaf k' v' =>
          injection h with h
          refine ⟨l.leavesDir 0 ++ p, s, lf, ?_, ?_, h3⟩
          · rw [leavesDir_zero_inner, h1]
            simp
          · rw [← h, leavesDir_zero_inner, h2]
            simp
        | inner bit' l' r' =>
          injection h with h
          refine ⟨l.leavesDir 0 ++ p, s, lf, ?_, ?_, h3⟩
          · rw [leavesDir_zero_inner, h1]
            simp
          · rw [← h, leavesDir_zero_inner, h2]
            simp
    · rcases hdel : l.delete key with _ | m'
      · rw [hdel] at h; cases h
      · rw [hdel] at h
        obtain ⟨p, s, lf, h1, h2, h3⟩ := ihl hnl hdel
        cases m' with
        | empty =>
          injection h with h
          simp only [leavesDir] at h2
          obtain ⟨hp, hs⟩ := List.append_eq_nil.mp h2.symm
          subst hp hs
          refine ⟨[], r.leavesDir 0, lf, ?_, ?_, h3⟩
          · rw [leavesDir_zero_inner, h1]
            simp
          · rw [← h]
            simp
        | leaf k' v' =>
          injection h with h
          refine ⟨p, s ++ r.leavesDir 0, lf, ?_, ?_, h3⟩
          · rw [leavesDir_zero_inner, h1]
            simp
          · rw [← h, leavesDir_zero_inner, h2]
            simp
        | inner bit' l' r' =>
          injection h with h
          refine ⟨p, s ++ r.leavesDir 0, lf, ?_, ?_, h3⟩
          · rw [leavesDir_zero_inner, h1]
            simp
          · rw [← h, leavesDir_zero_inner, h2]
            simp

theorem NE_delete {n : Node V} {key : Key} {m : Node V} (hne : n.NE)
    (h : n.delete key = some m) : m.NE := by
  induction n generalizing m with
  | empty => cases h
  | leaf k v =>
    unfold delete at h
    split at h
    · injection h with h; rw [← h]; trivial
    · cases h
  | inner bit l r ihl ihr =>
    obtain ⟨hl, hr, hnl, hnr⟩ := hne
    rw [delete_inner] at h
    split at h
    · rcases hdel : r.delete key with _ | m'
      · rw [hdel] at h; cases h
      · rw [hdel] at h
        cases m' with
        | empty => injection h with h; rw [← h]; exact hnl
        | leaf k' v' =>
          injection h with h
          rw [← h]
          exact ⟨hl, by simp, hnl, ihr hnr hdel⟩
        | inner bit' l' r' =>
          injection h with h
          rw [← h]
          exact ⟨hl, by simp, hnl, ihr hnr hdel⟩
    · rcases hdel : l.delete key with _ | m'
      · rw [hdel] at h; cases h
      · rw [hdel] at h
        cases m' with
        | empty => injection h with h; rw [← h]; exact hnr
        | leaf k' v' =>
          injection h with h
          rw [← h]
          exact ⟨by simp, hr, ihl hnl hdel, hnr⟩
        | inner bit' l' r' =>
          injection h with h
          rw [← h]
          exact ⟨by simp, hr, ihl hnl hdel, hnr⟩

theorem leavesDir_length (dir : Nat) (n : Node V) :
    (n.leavesDir dir).length = n.leafCount := by
  induction n with
  | empty => rfl
  | leaf k v => rfl
  | inner bit l r ihl ihr =>
    unfold leavesDir leafCount
    split <;> simp [ihl, ihr] <;> omega

end Node

/-! ## Tree-level theorems -/

/-- C8: deleting an absent key is a no-op on the whole tree value, and
doing it twice equals doing it once.  This holds for every tree, not just
reachable ones. -/
theorem c8_delete_noop {V : Type} (t : Tree V) (k : Key) (hwf : k.WF)
    (habs : ∀ lf ∈ t.root.leavesDir 0, lf.1.Equal k = false) :
    t.Delete k = t ∧ (t.Delete k).Delete k = t.Delete k := by
  have hdel : t.root.delete k = none := Node.delete_none habs
  have h1 : t.Delete k = t := by
    simp only [Tree.Delete, hdel]
  exact ⟨h1, by rw [h1, h1]⟩

/-- Every tree reachable by arbitrary `Set`/`Delete` calls has no empty
node below an inner node and its stored count equals its leaf count. -/
theorem reachable_inv {V : Type} {t : Tree V} (h : Reachable t) :
    t.root.NE ∧ t.nums = t.root.leafCount := by
  induction h with
  | empty => exact ⟨trivial, rfl⟩
  | set k v ht ih =>
    obtain ⟨hne, hc⟩ := ih
    rename_i t'
    rcases hfl : t'.root.findLeaf k with _ | ⟨pk, pv⟩
    · have hroot : t'.root = .empty := (Node.findLeaf_empty_iff hne k).mp hfl
      constructor
      · simp only [Tree.Set, hfl]
        trivial
      · simp only [Tree.Set, hfl]
        rw [hc, hroot]
        rfl
    · have hrne : t'.root ≠ .empty := by
        intro hc'
        rw [hc'] at hfl
        cases hfl
      by_cases hbit : pk.Critbit k = -1
      · constructor
        · simp only [Tree.Set, hfl, if_pos hbit]
          exact Node.NE_replaceValue hne k v
        · simp only [Tree.Set, hfl, if_pos hbit]
          rw [hc, Node.leafCount_replaceValue]
      · constructor
        · simp only [Tree.Set, hfl, if_neg hbit]
          exact Node.NE_insertAt hne hrne k v _
        · simp only [Tree.Set, hfl, if_neg hbit]
          rw [hc, Node.leafCount_insertAt]
  | del k ht ih =>
    obtain ⟨hne, hc⟩ := ih
    rename_i t'
    rcases hdel : t'.root.delete k with _ | m
    · simp only [Tree.Delete, hdel]
      exact ⟨hne, hc⟩
    · constructor
      · simp only [Tree.Delete, hdel]
        exact Node.NE_delete hne hdel
      · simp only [Tree.Delete, hdel]
        obtain ⟨p, s, lf, h1, h2, _⟩ := Node.delete_leaves hne hdel
        have hl1 : (t'.root.leavesDir 0).length = t'.root.leafCount :=
          Node.leavesDir_length 0 _
        have hl2 : (m.leavesDir 0).length = m.leafCount :=
          Node.leavesDir_length 0 _
        rw [h1] at hl1
        rw [h2] at hl2
        simp at hl1 hl2
        omega

/-- C6: in every reachable tree state, `Len` equals the number of leaves;
a replace-in-place `Set` keeps the count and the key sequence, a fresh
insertion adds exactly one leaf and increments the count, and deleting a
present key removes exactly one leaf and decrements the count. -/
theorem c6_count {V : Type} (t : Tree V) (h : Reachable t) :
    t.Len = t.root.leafCount ∧
      (∀ (k : Key) (v : V) (pk : Key) (pv : V),
        t.root.findLeaf k = some (pk, pv) → pk.Critbit k = -1 →
          (t.Set k v).Len = t.Len ∧
            ((t.Set k v).root.leavesDir 0).map Prod.fst =
              (t.root.leavesDir 0).map Prod.fst) ∧
      (∀ (k : Key) (v : V) (pk : Key) (pv : V),
        t.root.findLeaf k = some (pk, pv) → pk.Critbit k ≠ -1 →
          (t.Set k v).Len = t.Len + 1 ∧
            (t.Set k v).root.leafCount = t.root.leafCount + 1) ∧
      (∀ (k : Key) (m : Node V), t.root.delete k = some m →
        (t.Delete k).Len = t.Len - 1 ∧ m.leafCount + 1 = t.root.leafCount) := by
  obtain ⟨hne, hc⟩ := reachable_inv h
  refine ⟨hc, ?_, ?_, ?_⟩
  · intro k v pk pv hfl hbit
    constructor
    · simp only [Tree.Set, hfl, if_pos hbit, Tree.Len]
    · simp only [Tree.Set, hfl, if_pos hbit]
      exact Node.keys_replaceValue t.root k v
  · intro k v pk pv hfl hbit
    constructor
    · simp only [Tree.Set, hfl, if_neg hbit, Tree.Len]
    · simp only [Tree.Set, hfl, if_neg hbit]
      exact Node.leafCount_insertAt t.root k v _
  · intro k m hdel
    constructor
    · simp only [Tree.Delete, hdel, Tree.Len]
    · obtain ⟨p, s, lf, h1, h2, _⟩ := Node.delete_leaves hne hdel
      have hl1 : (t.root.leavesDir 0).length = t.root.leafCount :=
        Node.leavesDir_length 0 _
      have hl2 : (m.leavesDir 0).length = m.leafCount :=
        Node.leavesDir_length 0 _
      rw [h1] at hl1
      rw [h2] at hl2
      simp at hl1 hl2
      omega

/-- Witness for `c6_count`: a concrete reachable tree. -/
theorem c6_count_witness :
    Reachable cexT3 ∧ cexT3.Len = cexT3.root.leafCount :=
  ⟨Reachable.set cexD 3 (Reachable.set cexB 2 (Reachable.set cexA 1 Reachable.empty)),
    (c6_count cexT3 (Reachable.set cexD 3 (Reachable.set cexB 2
      (Reachable.set cexA 1 Reachable.empty)))).1⟩

/-- Witness for `c8_delete_noop`: deleting the absent key `cexY` from the
two-entry tree `cexT2`. -/
theorem c8_delete_noop_witness :
    cexY.WF ∧ (∀ lf ∈ cexT2.root.leavesDir 0, lf.1.Equal cexY = false) ∧
      cexT2.Delete cexY = cexT2 :=
  ⟨by decide, by decide, (c8_delete_noop cexT2 cexY (by decide) (by decide)).1⟩

/-- Every tree reachable by `Set`/`Delete` with canonical keys has no
empty node below an inner node and stores only canonical keys. -/
theorem reachableC_inv {V : Type} {t : Tree V} (h : ReachableC t) :
    t.root.NE ∧ ∀ lf ∈ t.root.leavesDir 0, lf.1.Canon := by
  induction h with
  | empty => exact ⟨trivial, by intro lf hlf; cases hlf⟩
  | set k v ht hk ih =>
    obtain ⟨hne, hcan⟩ := ih
    rename_i t'
    rcases hfl : t'.root.findLeaf k with _ | ⟨pk, pv⟩
    · constructor
      · simp only [Tree.Set, hfl]
        trivial
      · simp only [Tree.Set, hfl]
        intro lf hlf
        simp [Node.leavesDir] at hlf
        rw [hlf]
        exact hk
    · have hrne : t'.root ≠ .empty := by
        intro hc'
        rw [hc'] at hfl
        cases hfl
      by_cases hbit : pk.Critbit k = -1
      · constructor
        · simp only [Tree.Set, hfl, if_pos hbit]
          exact Node.NE_replaceValue hne k v
        · simp only [Tree.Set, hfl, if_pos hbit]
          intro lf hlf
          obtain ⟨v', hv'⟩ := Node.mem_leaves_replaceValue hlf
          exact hcan (lf.1, v') hv'
      · constructor
        · simp only [Tree.Set, hfl, if_neg hbit]
          exact Node.NE_insertAt hne hrne k v _
        · simp only [Tree.Set, hfl, if_neg hbit]
          intro lf hlf
          rcases Node.mem_leaves_insertAt hlf with h' | h'
          · exact hcan _ h'
          · rw [h']
            exact hk
  | del k ht hk ih =>
    obtain ⟨hne, hcan⟩ := ih
    rename_i t'
    rcases hdel : t'.root.delete k with _ | m
    · simp only [Tree.Delete, hdel]
      exact ⟨hne, hcan⟩
    · constructor
      · simp only [Tree.Delete, hdel]
        exact Node.NE_delete hne hdel
      · simp only [Tree.Delete, hdel]
        intro lf hlf
        obtain ⟨p, s, lf', h1, h2, _⟩ := Node.delete_leaves hne hdel
        apply hcan
        rw [h1]
        rw [h2] at hlf
        rcases List.mem_append.mp hlf with h' | h'
        · exact List.mem_append.mpr (Or.inl h')
        · exact List.mem_append.mpr (Or.inr (List.mem_cons_of_mem _ h'))

/-- C1 (amended): on trees reachable with canonical keys, when the one
`Critbit` call that `Set` performs (the stored probe leaf's key against
the new key) reads only in-range bytes — otherwise Go panics with an
index-out-of-range error instead of returning — `Set` followed
immediately by `Get` of the same canonical key returns the new value. -/
theorem c1_roundtrip {V : Type} (t : Tree V) (k : Key) (v : V)
    (h : ReachableC t) (hk : k.Canon)
    (hsafe : ∀ pk pv, t.root.findLeaf k = some (pk, pv) → pk.CritbitSafe k) :
    (t.Set k v).Get k = some v := by
  obtain ⟨hne, hcanon⟩ := reachableC_inv h
  rcases hfl : t.root.findLeaf k with _ | ⟨pk, pv⟩
  · simp only [Tree.Set, hfl, Tree.Get, Node.findLeaf]
    rw [Key.Equal_refl]
    simp
  · have hpkcanon := hcanon _ (Node.findLeaf_mem hfl)
    by_cases hbit : pk.Critbit k = -1
    · have hpk_eq : pk = k := by
        obtain ⟨hn, he⟩ := Key.critbit_neg1 hpkcanon.1 hk.1 hbit
        exact Key.eq_of_canon_bits hpkcanon hk hn he
      have hrep : (t.root.replaceValue k v).findLeaf k = some (k, v) := by
        rw [Node.findLeaf_replaceValue, hfl, hpk_eq]
        rfl
      simp only [Tree.Set, hfl, if_pos hbit, Tree.Get, hrep]
      simp [Key.Equal_refl]
    · simp only [Tree.Set, hfl, if_neg hbit, Tree.Get, Node.findLeaf_insertAt]
      simp [Key.Equal_refl]

/-- Witness for `c1_roundtrip`: replacing the value of the stored key
`cexK1` in a one-entry reachable tree; the probe returns `cexK1` itself
and the `Critbit` call on that pair reads only in-range bytes. -/
theorem c1_roundtrip_witness :
    cexK1.Canon ∧ cexK1.CritbitSafe cexK1 ∧
      (((Tree.empty : Tree Nat).Set cexK1 5).Set cexK1 6).Get cexK1 = some 6 :=
  ⟨by decide, by decide,
    c1_roundtrip ((Tree.empty : Tree Nat).Set cexK1 5) cexK1 6
      (ReachableC.set cexK1 5 ReachableC.empty (by decide)) (by decide)
      (by
        intro pk pv hp
        have hp' : some ((cexK1 : Key), (5 : Nat)) = some (pk, pv) := hp
        have h2 : pk = cexK1 := (congrArg Prod.fst (Option.some.inj hp')).symm
        rw [h2]
        decide)⟩

/-! ## Scanner theorems -/

theorem Node.leavesDir_ne_nil {V : Type} {n : Node V} (hne : n.NE)
    (hnem : n ≠ .empty) (dir : Nat) : n.leavesDir dir ≠ [] := by
  induction n with
  | empty => exact absurd rfl hnem
  | leaf k v => simp [Node.leavesDir]
  | inner bit l r ihl ihr =>
    obtain ⟨hl, hr, hnl, hnr⟩ := hne
    unfold Node.leavesDir
    split <;> simp [ihl hnl hl, ihr hnr hr]

theorem Node.leavesDir_inner {V : Type} (dir bit : Nat) (l r : Node V) :
    (Node.inner bit l r).leavesDir dir =
      if dir == 1 then r.leavesDir dir ++ l.leavesDir dir
      else l.leavesDir dir ++ r.leavesDir dir := rfl

theorem scanDown_inner {V : Type} (dir bit : Nat) (l r : Node V) (stk : List (Node V)) :
    scanDown dir (Node.inner bit l r) stk =
      if dir == 1 then scanDown dir r (l :: stk) else scanDown dir l (r :: stk) := rfl

theorem scanDown_spec {V : Type} (dir : Nat) (n : Node V) (stk : List (Node V))
    (hne : n.NE) (hnem : n ≠ .empty)
    (hstk : ∀ x ∈ stk, x.NE ∧ x ≠ .empty) :
    ∃ lf stk', scanDown dir n stk = (some lf, stk') ∧
      lf :: stackLeaves dir stk' = n.leavesDir dir ++ stackLeaves dir stk ∧
      ∀ x ∈ stk', x.NE ∧ x ≠ .empty := by
  induction n generalizing stk with
  | empty => exact absurd rfl hnem
  | leaf k v =>
    exact ⟨(k, v), stk, rfl, by simp [Node.leavesDir, stackLeaves], hstk⟩
  | inner bit l r ihl ihr =>
    obtain ⟨hl, hr, hnl, hnr⟩ := hne
    by_cases hd : (dir == 1) = true
    · have hstep : scanDown dir (Node.inner bit l r) stk = scanDown dir r (l :: stk) := by
        rw [scanDown_inner, if_pos hd]
      obtain ⟨lf, stk', h1, h2, h3⟩ := ihr (l :: stk) hnr hr
        (by intro x hx
            rcases List.mem_cons.mp hx with h | h
            · rw [h]; exact ⟨hnl, hl⟩
            · exact hstk x h)
      refine ⟨lf, stk', by rw [hstep, h1], ?_, h3⟩
      rw [h2]
      show r.leavesDir dir ++ (l.leavesDir dir ++ stackLeaves dir stk) = _
      rw [Node.leavesDir_inner, if_pos hd, List.append_assoc]
    · have hstep : scanDown dir (Node.inner bit l r) stk = scanDown dir l (r :: stk) := by
        rw [scanDown_inner, if_neg hd]
      obtain ⟨lf, stk', h1, h2, h3⟩ := ihl (r :: stk) hnl hl
        (by intro x hx
            rcases List.mem_cons.mp hx with h | h
            · rw [h]; exact ⟨hnr, hr⟩
            · exact hstk x h)
      refine ⟨lf, stk', by rw [hstep, h1], ?_, h3⟩
      rw [h2]
      show l.leavesDir dir ++ (r.leavesDir dir ++ stackLeaves dir stk) = _
      rw [Node.leavesDir_inner, if_neg hd, List.append_assoc]

theorem Scanner.Scan_nil {V : Type} (dir : Nat) :
    (Scanner.mk dir ([] : List (Node V))).Scan = (none, ⟨dir, []⟩) := rfl

theorem Scanner.Scan_cons {V : Type} (dir : Nat) (n : Node V) (rest : List (Node V)) :
    (Scanner.mk dir (n :: rest)).Scan =
      ((scanDown dir n rest).1, ⟨dir, (scanDown dir n rest).2⟩) := rfl

theorem Scanner.scanN_zero {V : Type} (s : Scanner V) : s.scanN 0 = [] := rfl

theorem Scanner.scanN_succ {V : Type} (s : Scanner V) (m : Nat) :
    s.scanN (m + 1) = s.Scan.1 :: s.Scan.2.scanN m := rfl

theorem scanN_nil {V : Type} (dir : Nat) (m : Nat) :
    Scanner.scanN (⟨dir, []⟩ : Scanner V) m = List.replicate m none := by
  induction m with
  | zero => rfl
  | succ m ih =>
    rw [Scanner.scanN_succ, Scanner.Scan_nil, List.replicate_succ]
    show (none : Option (Key × V)) :: Scanner.scanN ⟨dir, []⟩ m = _
    rw [ih]

theorem scanN_spec {V : Type} (dir : Nat) :
    ∀ (m : Nat) (stk : List (Node V)), (∀ x ∈ stk, x.NE ∧ x ≠ .empty) →
      Scanner.scanN ⟨dir, stk⟩ m =
        ((stackLeaves dir stk).map some ++
          List.replicate (m - (stackLeaves dir stk).length) none).take m := by
  intro m
  induction m with
  | zero => intro stk hstk; rfl
  | succ m ih =>
    intro stk hstk
    cases stk with
    | nil =>
      rw [scanN_nil]
      simp [stackLeaves, List.take_replicate]
    | cons n rest =>
      obtain ⟨hne, hnem⟩ := hstk n (List.mem_cons_self _ _)
      obtain ⟨lf, stk', h1, h2, h3⟩ := scanDown_spec dir n rest hne hnem
        (fun x hx => hstk x (List.mem_cons_of_mem _ hx))
      have hscan : (Scanner.mk dir (n :: rest)).Scan = (some lf, ⟨dir, stk'⟩) := by
        rw [Scanner.Scan_cons, h1]
      rw [Scanner.scanN_succ, hscan]
      show some lf :: Scanner.scanN ⟨dir, stk'⟩ m = _
      rw [ih stk' h3]
      have hsl : stackLeaves dir (n :: rest) = lf :: stackLeaves dir stk' := by
        show n.leavesDir dir ++ stackLeaves dir rest = _
        rw [← h2]
      rw [hsl]
      simp [List.take_succ_cons]

/-- C10 (amended): over any node snapshot with no empty node below an
inner node — as holds for every reachable tree root — the scanner is
finite and one-shot: the `m`-th call returns the `m`-th leaf in traversal
order while leaves remain, and the exhausted sentinel afterwards. -/
theorem c10_scanner {V : Type} (root : Node V) (hne : root.NE)
    (reverse : Bool) (m : Nat) :
    (NewScanner root reverse).scanN m =
      ((root.leavesDir (if reverse then 1 else 0)).map some ++
        List.replicate (m - root.leafCount) none).take m := by
  have hnew : NewScanner root reverse = ⟨if reverse then 1 else 0, [root]⟩ := by
    unfold NewScanner
    cases reverse <;> rfl
  rw [hnew]
  set dir := if reverse then (1 : Nat) else 0 with hdir
  by_cases hroot : root = .empty
  · subst hroot
    have h1 : Scanner.scanN (⟨dir, [Node.empty]⟩ : Scanner V) m = List.replicate m none := by
      cases m with
      | zero => rfl
      | succ m =>
        have hscan : (Scanner.mk dir ([Node.empty] : List (Node V))).Scan =
            (none, ⟨dir, []⟩) := by
          rw [Scanner.Scan_cons]
          rfl
        rw [Scanner.scanN_succ, hscan, List.replicate_succ]
        show (none : Option (Key × V)) :: Scanner.scanN ⟨dir, []⟩ m = _
        rw [scanN_nil]
    rw [h1]
    simp [Node.leavesDir, Node.leafCount, List.take_replicate]
  · have h := scanN_spec dir m [root]
      (by intro x hx
          rcases List.mem_cons.mp hx with h | h
          · rw [h]; exact ⟨hne, hroot⟩
          · cases h)
    rw [h]
    have hsl : stackLeaves dir [root] = root.leavesDir dir := by
      show root.leavesDir dir ++ stackLeaves dir [] = _
      simp [stackLeaves]
    rw [hsl, Node.leavesDir_length]

/-- Witness for `c10_scanner`: running the scanner over the three-leaf
tree `cexT3` for five steps. -/
theorem c10_scanner_witness :
    cexT3.root.NE ∧
      (NewScanner cexT3.root false).scanN 5 =
        ((cexT3.root.leavesDir (if false then 1 else 0)).map some ++
          List.replicate (5 - cexT3.root.leafCount) none).take 5 :=
  ⟨by decide, c10_scanner cexT3.root (by decide) false 5⟩

/-! ## The zero-length key (C9) -/

/-- Every key, well formed or not, has the zero-length key as a prefix. -/
theorem Key.hasPrefix_zeroKey (k : Key) : k.HasPrefix zeroKey = true := by
  unfold Key.HasPrefix
  rw [if_neg (by simp [zeroKey])]
  rfl

/-- Every bit of the zero-length key reads as zero. -/
theorem Key.ebit_zeroKey (i : Nat) : zeroKey.ebit i = false :=
  Key.ebit_of_ge (Nat.zero_le i)

/-- The zero-length key goes left at every encoded ordinal. -/
theorem Key.direction_zeroKey (e : Nat) : zeroKey.Direction e = 0 := by
  rcases Nat.mod_two_eq_zero_or_one e with h | h
  · rw [Key.direction_even (by decide) h, if_neg]
    show ¬ e >>> 1 < zeroKey.Nbits
    simp [zeroKey]
  · rw [Key.direction_odd (by decide) h, Key.ebit_zeroKey]
    rfl

/-- `Critbit` of the zero-length key against itself is the sentinel. -/
theorem Key.critbit_zeroKey_self : zeroKey.Critbit zeroKey = -1 := by decide

/-- A canonical key other than the zero-length key has a positive bit
count. -/
theorem Key.canon_nbits_pos {k : Key} (hk : k.Canon) (hkz : k ≠ zeroKey) :
    0 < k.Nbits := by
  by_contra hc
  apply hkz
  have h0 : k.Nbits = 0 := by omega
  have hlen : k.Data.length = 0 := by rw [hk.2, h0]
  have hdata : k.Data = [] := List.length_eq_zero.mp hlen
  cases k
  simp_all [zeroKey]

/-- The head of a nonempty list survives appending on the right. -/
theorem head?_append_ne_nil {α : Type} {xs : List α} (ys : List α)
    (hx : xs ≠ []) : (xs ++ ys).head? = xs.head? := by
  cases xs with
  | nil => exact absurd rfl hx
  | cons a t => rfl

/-- `head?` yielding an element puts that element in the list. -/
theorem mem_of_head_some {α : Type} {l : List α} {a : α}
    (h : l.head? = some a) : a ∈ l := by
  cases l with
  | nil => cases h
  | cons x t =>
    injection h with h
    rw [← h]
    exact List.mem_cons_self x t

/-- Halving is monotone. -/
theorem shiftRight1_mono {a b : Nat} (h : a ≤ b) : a >>> 1 ≤ b >>> 1 := by
  rw [shiftRight1_eq, shiftRight1_eq]
  omega

theorem Key.agreeBelow_refl (a : Key) (p : Nat) : a.agreeBelow a p :=
  fun _ _ => rfl

theorem Key.agreeBelow_symm {a b : Key} {p : Nat} (h : a.agreeBelow b p) :
    b.agreeBelow a p := fun i hi => (h i hi).symm

theorem Key.agreeBelow_mono {a b : Key} {p q : Nat} (hpq : p ≤ q)
    (h : a.agreeBelow b q) : a.agreeBelow b p :=
  fun i hi => h i (lt_of_lt_of_le hi hpq)

theorem Key.agreeBelow_trans {a b c : Key} {p : Nat} (h1 : a.agreeBelow b p)
    (h2 : b.agreeBelow c p) : a.agreeBelow c p :=
  fun i hi => (h1 i hi).trans (h2 i hi)

namespace Node

variable {V : Type}

theorem innerBits_inner (e : Nat) (l r : Node V) :
    (Node.inner e l r).innerBits = e :: (l.innerBits ++ r.innerBits) := rfl

/-- All ordinals inside a monotone inner node are at least its own. -/
theorem innerBits_bound {e : Nat} {l r : Node V}
    (h : (Node.inner e l r).MonoGE) :
    ∀ f ∈ (Node.inner e l r).innerBits, e ≤ f := by
  obtain ⟨h1, h2, _, _⟩ := h
  intro f hf
  rw [innerBits_inner] at hf
  rcases List.mem_cons.mp hf with h' | h'
  · omega
  · rcases List.mem_append.mp h' with h'' | h''
    · exact h1 f h''
    · exact h2 f h''

end Node

/-- A key routes left at every ordinal strictly beyond twice its length. -/
theorem Key.direction_ge_length {k : Key} (hk : k.WF) {f : Nat}
    (hf : 2 * k.Nbits < f) : k.Direction f = 0 := by
  rcases Nat.mod_two_eq_zero_or_one f with h | h
  · rw [Key.direction_even hk h, if_neg]
    rw [shiftRight1_eq]
    omega
  · rw [Key.direction_odd hk h]
    have hge : k.Nbits ≤ f >>> 1 := by
      rw [shiftRight1_eq]
      omega
    rw [Key.ebit_of_ge hge]
    rfl

/-- At any non-sentinel `Critbit` ordinal computed against the zero-length
key, a canonical nonzero key routes right. -/
theorem Key.direction_of_critbit_zeroKey {k : Key} {bit : Nat}
    (hk : k.Canon) (hkz : k ≠ zeroKey)
    (hbit : zeroKey.Critbit k = Int.ofNat bit) : k.Direction bit = 1 := by
  rcases Key.critbit_cases zeroKey k (by decide) hk.1 with
    ⟨h1, _, _⟩ | ⟨s, hs, _, hsne, _⟩ | ⟨hs, _, _⟩
  · rw [hbit] at h1
    have hnn : (0 : Int) ≤ Int.ofNat bit := Int.ofNat_nonneg bit
    rw [h1] at hnn
    exact absurd hnn (by decide)
  · rw [hbit] at hs
    have he : bit = 2 * s + 1 := Int.ofNat.inj hs
    have hke : k.ebit s = true := by
      rw [Key.ebit_zeroKey] at hsne
      exact eq_true_of_ne_false (fun hc => hsne hc.symm)
    rw [Key.direction_odd hk.1 (by omega)]
    have hs1 : bit >>> 1 = s := by
      rw [shiftRight1_eq]
      omega
    rw [hs1, hke]
    rfl
  · rw [hbit] at hs
    have he : bit = 2 * min zeroKey.Nbits k.Nbits := Int.ofNat.inj hs
    have he0 : bit = 0 := by
      rw [he]
      show 2 * min 0 k.Nbits = 0
      simp
    have hpos := Key.canon_nbits_pos hk hkz
    rw [he0, Key.direction_even hk.1 (by omega), if_pos]
    show (0 : Nat) >>> 1 < k.Nbits
    simpa using hpos

namespace Node

variable {V : Type}

/-- `findLeaf` with the zero-length key walks the left spine. -/
theorem findLeaf_zeroKey (n : Node V) : n.findLeaf zeroKey = n.leftmost := by
  induction n with
  | empty => rfl
  | leaf k v => rfl
  | inner bit l r ihl ihr =>
    rw [findLeaf_inner, Key.direction_zeroKey, if_neg (by decide)]
    exact ihl

/-- On nodes with no empty below an inner, the leftmost leaf heads the
in-order leaf sequence. -/
theorem leftmost_eq_head {n : Node V} (hne : n.NE) :
    n.leftmost = (n.leavesDir 0).head? := by
  induction n with
  | empty => rfl
  | leaf k v => rfl
  | inner bit l r ihl ihr =>
    obtain ⟨hl, hr, hnl, hnr⟩ := hne
    rw [leavesDir_zero_inner,
      head?_append_ne_nil _ (leavesDir_ne_nil hnl hl 0)]
    exact ihl hnl

/-- A key routed left at every inner ordinal finds the leftmost leaf. -/
theorem findLeaf_eq_leftmost {n : Node V} {key : Key}
    (h : ∀ f ∈ n.innerBits, key.Direction f = 0) :
    n.findLeaf key = n.leftmost := by
  induction n with
  | empty => rfl
  | leaf k v => rfl
  | inner bit l r ihl ihr =>
    have hd : key.Direction bit = 0 :=
      h bit (by rw [innerBits_inner]; exact List.mem_cons_self _ _)
    rw [findLeaf_inner, hd, if_neg (by decide)]
    exact ihl (fun f hf => h f (by
      rw [innerBits_inner]
      exact List.mem_cons_of_mem _ (List.mem_append.mpr (Or.inl hf))))

/-- Splicing adds only the ordinal `bit` to the inner ordinals. -/
theorem mem_innerBits_splice {n : Node V} {key : Key} {val : V} {bit f : Nat}
    (h : f ∈ (n.splice key val bit).innerBits) : f = bit ∨ f ∈ n.innerBits := by
  rw [splice_eq] at h
  split at h <;> rw [innerBits_inner] at h <;>
    rcases List.mem_cons.mp h with h' | h' <;>
    [exact Or.inl h'; skip; exact Or.inl h'; skip] <;>
    rcases List.mem_append.mp h' with h'' | h''
  · exact Or.inr h''
  · cases h''
  · cases h''
  · exact Or.inr h''

/-- Insertion adds only the ordinal `bit` to the inner ordinals. -/
theorem mem_innerBits_insertAt {n : Node V} {key : Key} {val : V} {bit f : Nat}
    (h : f ∈ (n.insertAt key val bit).innerBits) :
    f = bit ∨ f ∈ n.innerBits := by
  induction n with
  | empty => exact mem_innerBits_splice h
  | leaf k v => exact mem_innerBits_splice h
  | inner ibit l r ihl ihr =>
    rw [insertAt_inner] at h
    by_cases hgt : ibit > bit
    · rw [if_pos hgt] at h
      exact mem_innerBits_splice h
    · rw [if_neg hgt] at h
      split at h <;> rw [innerBits_inner] at h <;>
        rcases List.mem_cons.mp h with h' | h'
      · exact Or.inr (by rw [innerBits_inner]; exact List.mem_cons.mpr (Or.inl h'))
      · rcases List.mem_append.mp h' with h'' | h''
        · exact Or.inr (by
            rw [innerBits_inner]
            exact List.mem_cons_of_mem _ (List.mem_append.mpr (Or.inl h'')))
        · rcases ihr h'' with h3 | h3
          · exact Or.inl h3
          · exact Or.inr (by
              rw [innerBits_inner]
              exact List.mem_cons_of_mem _ (List.mem_append.mpr (Or.inr h3)))
      · exact Or.inr (by rw [innerBits_inner]; exact List.mem_cons.mpr (Or.inl h'))
      · rcases List.mem_append.mp h' with h'' | h''
        · rcases ihl h'' with h3 | h3
          · exact Or.inl h3
          · exact Or.inr (by
              rw [innerBits_inner]
              exact List.mem_cons_of_mem _ (List.mem_append.mpr (Or.inl h3)))
        · exact Or.inr (by
            rw [innerBits_inner]
            exact List.mem_cons_of_mem _ (List.mem_append.mpr (Or.inr h'')))

theorem monoGE_empty : (Node.empty : Node V).MonoGE := trivial

theorem monoGE_leaf (k : Key) (v : V) : (Node.leaf k v).MonoGE := trivial

theorem monoGE_inner (e : Nat) (l r : Node V) :
    (Node.inner e l r).MonoGE =
      ((∀ f ∈ l.innerBits, e ≤ f) ∧ (∀ f ∈ r.innerBits, e ≤ f) ∧
        l.MonoGE ∧ r.MonoGE) := rfl

/-- Splicing below an upper bound `bit` on the existing ordinals keeps
monotonicity. -/
theorem monoGE_splice {n : Node V} {bit : Nat} (hm : n.MonoGE)
    (hb : ∀ f ∈ n.innerBits, bit ≤ f) (key : Key) (val : V) :
    (n.splice key val bit).MonoGE := by
  rw [splice_eq]
  split <;> rw [monoGE_inner]
  · exact ⟨hb, (by intro f hf; cases hf), hm, monoGE_leaf key val⟩
  · exact ⟨(by intro f hf; cases hf), hb, monoGE_leaf key val, hm⟩

/-- `insertAt` preserves the non-strict monotonicity of inner ordinals. -/
theorem monoGE_insertAt {n : Node V} (hm : n.MonoGE) (key : Key) (val : V)
    (bit : Nat) : (n.insertAt key val bit).MonoGE := by
  induction n with
  | empty =>
    exact monoGE_splice monoGE_empty (by intro f hf; cases hf) key val
  | leaf k v =>
    exact monoGE_splice (monoGE_leaf k v) (by intro f hf; cases hf) key val
  | inner ibit l r ihl ihr =>
    obtain ⟨h1, h2, h3, h4⟩ := hm
    have hm' : (Node.inner ibit l r).MonoGE := by
      rw [monoGE_inner]
      exact ⟨h1, h2, h3, h4⟩
    rw [insertAt_inner]
    by_cases hgt : ibit > bit
    · rw [if_pos hgt]
      apply monoGE_splice hm' _ key val
      intro f hf
      have := innerBits_bound hm' f hf
      omega
    · rw [if_neg hgt]
      split <;> rw [monoGE_inner]
      · refine ⟨h1, ?_, h3, ihr h4⟩
        intro f hf
        rcases mem_innerBits_insertAt hf with h' | h'
        · omega
        · exact h2 f h'
      · refine ⟨?_, h2, ihl h3, h4⟩
        intro f hf
        rcases mem_innerBits_insertAt hf with h' | h'
        · omega
        · exact h1 f h'

/-- Deletion only removes inner ordinals. -/
theorem mem_innerBits_delete {n m : Node V} {key : Key}
    (hdel : n.delete key = some m) {f : Nat} (h : f ∈ m.innerBits) :
    f ∈ n.innerBits := by
  induction n generalizing m with
  | empty => cases hdel
  | leaf k v =>
    unfold delete at hdel
    split at hdel
    · injection hdel with hdel
      rw [← hdel] at h
      cases h
    · cases hdel
  | inner bit l r ihl ihr =>
    rw [delete_inner] at hdel
    split at hdel
    · rcases hd : r.delete key with _ | m'
      · rw [hd] at hdel; cases hdel
      · rw [hd] at hdel
        cases m' with
        | empty =>
          injection hdel with hdel
          rw [← hdel] at h
          rw [innerBits_inner]
          exact List.mem_cons_of_mem _ (List.mem_append.mpr (Or.inl h))
        | leaf k' v' =>
          injection hdel with hdel
          rw [← hdel] at h
          rw [innerBits_inner] at h ⊢
          rcases List.mem_cons.mp h with h' | h'
          · exact List.mem_cons.mpr (Or.inl h')
          · rcases List.mem_append.mp h' with h'' | h''
            · exact List.mem_cons_of_mem _ (List.mem_append.mpr (Or.inl h''))
            · exact List.mem_cons_of_mem _
                (List.mem_append.mpr (Or.inr (ihr hd h'')))
        | inner bit' l' r' =>
          injection hdel with hdel
          rw [← hdel] at h
          rw [innerBits_inner] at h ⊢
          rcases List.mem_cons.mp h with h' | h'
          · exact List.mem_cons.mpr (Or.inl h')
          · rcases List.mem_append.mp h' with h'' | h''
            · exact List.mem_cons_of_mem _ (List.mem_append.mpr (Or.inl h''))
            · exact List.mem_cons_of_mem _
                (List.mem_append.mpr (Or.inr (ihr hd h'')))
    · rcases hd : l.delete key with _ | m'
      · rw [hd] at hdel; cases hdel
      · rw [hd] at hdel
        cases m' with
        | empty =>
          injection hdel with hdel
          rw [← hdel] at h
          rw [innerBits_inner]
          exact List.mem_cons_of_mem _ (List.mem_append.mpr (Or.inr h))
        | leaf k' v' =>
          injection hdel with hdel
          rw [← hdel] at h
          rw [innerBits_inner] at h ⊢
          rcases List.mem_cons.mp h with h' | h'
          · exact List.mem_cons.mpr (Or.inl h')
          · rcases List.mem_append.mp h' with h'' | h''
            · exact List.mem_cons_of_mem _
                (List.mem_append.mpr (Or.inl (ihl hd h'')))
            · exact List.mem_cons_of_mem _ (List.mem_append.mpr (Or.inr h''))
        | inner bit' l' r' =>
          injection hdel with hdel
          rw [← hdel] at h
          rw [innerBits_inner] at h ⊢
          rcases List.mem_cons.mp h with h' | h'
          · exact List.mem_cons.mpr (Or.inl h')
          · rcases List.mem_append.mp h' with h'' | h''
            · exact List.mem_cons_of_mem _
                (List.mem_append.mpr (Or.inl (ihl hd h'')))
            · exact List.mem_cons_of_mem _ (List.mem_append.mpr (Or.inr h''))

/-- `delete` preserves the non-strict monotonicity of inner ordinals. -/
theorem monoGE_delete {n m : Node V} {key : Key} (hm : n.MonoGE)
    (hdel : n.delete key = some m) : m.MonoGE := by
  induction n generalizing m with
  | empty => cases hdel
  | leaf k v =>
    unfold delete at hdel
    split at hdel
    · injection hdel with hdel
      rw [← hdel]
      trivial
    · cases hdel
  | inner bit l r ihl ihr =>
    obtain ⟨h1, h2, h3, h4⟩ := hm
    rw [delete_inner] at hdel
    split at hdel
    · rcases hd : r.delete key with _ | m'
      · rw [hd] at hdel; cases hdel
      · rw [hd] at hdel
        cases m' with
        | empty => injection hdel with hdel; rw [← hdel]; exact h3
        | leaf k' v' =>
          injection hdel with hdel
          rw [← hdel, monoGE_inner]
          exact ⟨h1, fun f hf => h2 f (mem_innerBits_delete hd hf), h3, ihr h4 hd⟩
        | inner bit' l' r' =>
          injection hdel with hdel
          rw [← hdel, monoGE_inner]
          exact ⟨h1, fun f hf => h2 f (mem_innerBits_delete hd hf), h3, ihr h4 hd⟩
    · rcases hd : l.delete key with _ | m'
      · rw [hd] at hdel; cases hdel
      · rw [hd] at hdel
        cases m' with
        | empty => injection hdel with hdel; rw [← hdel]; exact h4
        | leaf k' v' =>
          injection hdel with hdel
          rw [← hdel, monoGE_inner]
          exact ⟨fun f hf => h1 f (mem_innerBits_delete hd hf), h2, ihl h3 hd, h4⟩
        | inner bit' l' r' =>
          injection hdel with hdel
          rw [← hdel, monoGE_inner]
          exact ⟨fun f hf => h1 f (mem_innerBits_delete hd hf), h2, ihl h3 hd, h4⟩

/-- Value replacement keeps the inner ordinals unchanged. -/
theorem innerBits_replaceValue (n : Node V) (key : Key) (val : V) :
    (n.replaceValue key val).innerBits = n.innerBits := by
  induction n with
  | empty => rfl
  | leaf k v => rfl
  | inner bit l r ihl ihr =>
    rw [replaceValue_inner]
    split <;> rw [innerBits_inner, innerBits_inner] <;> simp [ihl, ihr]

/-- `replaceValue` preserves the monotonicity of inner ordinals. -/
theorem monoGE_replaceValue {n : Node V} (hm : n.MonoGE) (key : Key) (val : V) :
    (n.replaceValue key val).MonoGE := by
  induction n with
  | empty => trivial
  | leaf k v => trivial
  | inner bit l r ihl ihr =>
    obtain ⟨h1, h2, h3, h4⟩ := hm
    rw [replaceValue_inner]
    split <;> rw [monoGE_inner]
    · exact ⟨h1, (by rw [innerBits_replaceValue]; exact h2), h3, ihr h4⟩
    · exact ⟨(by rw [innerBits_replaceValue]; exact h1), h2, ihl h3, h4⟩

theorem coh_empty : (Node.empty : Node V).Coh := trivial

theorem coh_leaf (k : Key) (v : V) : (Node.leaf k v).Coh := trivial

theorem coh_inner (e : Nat) (l r : Node V) :
    (Node.inner e l r).Coh =
      (l.Coh ∧ r.Coh ∧
        ∀ a ∈ l.leavesDir 0 ++ r.leavesDir 0,
          ∀ b ∈ l.leavesDir 0 ++ r.leavesDir 0,
            Key.agreeBelow a.1 b.1 (e >>> 1)) := rfl

/-- Splicing a key that agrees with every present leaf below the new
ordinal's position yields a coherent node. -/
theorem coh_splice {n : Node V} {key : Key} {val : V} {bit : Nat}
    (hcoh : n.Coh)
    (hpairs : ∀ a ∈ n.leavesDir 0, ∀ b ∈ n.leavesDir 0,
      Key.agreeBelow a.1 b.1 (bit >>> 1))
    (hagn : ∀ a ∈ n.leavesDir 0, Key.agreeBelow key a.1 (bit >>> 1)) :
    (n.splice key val bit).Coh := by
  rw [splice_eq]
  split <;> rw [coh_inner]
  · refine ⟨hcoh, coh_leaf key val, ?_⟩
    intro a ha b hb
    rcases List.mem_append.mp ha with ha' | ha'
    · rcases List.mem_append.mp hb with hb' | hb'
      · exact hpairs a ha' b hb'
      · have hbk : b = (key, val) := by simpa [leavesDir] using hb'
        rw [hbk]
        exact Key.agreeBelow_symm (hagn a ha')
    · have hak : a = (key, val) := by simpa [leavesDir] using ha'
      rcases List.mem_append.mp hb with hb' | hb'
      · rw [hak]
        exact hagn b hb'
      · have hbk : b = (key, val) := by simpa [leavesDir] using hb'
        rw [hak, hbk]
        exact Key.agreeBelow_refl key _
  · refine ⟨coh_leaf key val, hcoh, ?_⟩
    intro a ha b hb
    rcases List.mem_append.mp ha with ha' | ha'
    · have hak : a = (key, val) := by simpa [leavesDir] using ha'
      rcases List.mem_append.mp hb with hb' | hb'
      · have hbk : b = (key, val) := by simpa [leavesDir] using hb'
        rw [hak, hbk]
        exact Key.agreeBelow_refl key _
      · rw [hak]
        exact hagn b hb'
    · rcases List.mem_append.mp hb with hb' | hb'
      · have hbk : b = (key, val) := by simpa [leavesDir] using hb'
        rw [hbk]
        exact Key.agreeBelow_symm (hagn a ha')
      · exact hpairs a ha' b hb'

/-- `insertAt` preserves routing coherence when the inserted key agrees
with the probed leaf below the splice ordinal's position. -/
theorem coh_insertAt {n : Node V} {key : Key} {val : V} {bit : Nat}
    {pk : Key} {pv : V} (hcoh : n.Coh)
    (hfl : n.findLeaf key = some (pk, pv))
    (hag : Key.agreeBelow key pk (bit >>> 1)) :
    (n.insertAt key val bit).Coh := by
  induction n with
  | empty => cases hfl
  | leaf k0 w =>
    have hks : k0 = pk := by
      unfold findLeaf at hfl
      injection hfl with hfl
      exact congrArg Prod.fst hfl
    rw [insertAt_base _ _ _ _ (by intro ibit l r hc; cases hc)]
    apply coh_splice (coh_leaf k0 w)
    · intro a ha b hb
      have hak : a = (k0, w) := by simpa [leavesDir] using ha
      have hbk : b = (k0, w) := by simpa [leavesDir] using hb
      rw [hak, hbk]
      exact Key.agreeBelow_refl k0 _
    · intro a ha
      have hak : a = (k0, w) := by simpa [leavesDir] using ha
      rw [hak]
      show Key.agreeBelow key k0 (bit >>> 1)
      rw [hks]
      exact hag
  | inner e l r ihl ihr =>
    have hpk : (pk, pv) ∈ l.leavesDir 0 ++ r.leavesDir 0 := by
      have := findLeaf_mem hfl
      rwa [leavesDir_zero_inner] at this
    obtain ⟨hcl, hcr, hcp⟩ := hcoh
    rw [insertAt_inner]
    by_cases hgt : e > bit
    · rw [if_pos hgt]
      have hmle : bit >>> 1 ≤ e >>> 1 := shiftRight1_mono (le_of_lt hgt)
      apply coh_splice (by rw [coh_inner]; exact ⟨hcl, hcr, hcp⟩)
      · intro a ha b hb
        rw [leavesDir_zero_inner] at ha hb
        exact Key.agreeBelow_mono hmle (hcp a ha b hb)
      · intro a ha
        rw [leavesDir_zero_inner] at ha
        exact Key.agreeBelow_trans hag
          (Key.agreeBelow_mono hmle (hcp (pk, pv) hpk a ha))
    · rw [if_neg hgt]
      have hele : e >>> 1 ≤ bit >>> 1 := shiftRight1_mono (by omega)
      have hknew : ∀ x ∈ l.leavesDir 0 ++ r.leavesDir 0,
          Key.agreeBelow key x.1 (e >>> 1) := by
        intro x hx
        exact Key.agreeBelow_trans (Key.agreeBelow_mono hele hag)
          (hcp (pk, pv) hpk x hx)
      rw [findLeaf_inner] at hfl
      by_cases hd : (key.Direction e == 1) = true
      · rw [if_pos hd] at hfl
        rw [if_pos hd, coh_inner]
        refine ⟨hcl, ihr hcr hfl, ?_⟩
        have hmem : ∀ x ∈ l.leavesDir 0 ++ (r.insertAt key val bit).leavesDir 0,
            x ∈ l.leavesDir 0 ++ r.leavesDir 0 ∨ x = (key, val) := by
          intro x hx
          rcases List.mem_append.mp hx with h' | h'
          · exact Or.inl (List.mem_append.mpr (Or.inl h'))
          · rcases mem_leaves_insertAt h' with h'' | h''
            · exact Or.inl (List.mem_append.mpr (Or.inr h''))
            · exact Or.inr h''
        intro a ha b hb
        rcases hmem a ha with ha' | ha' <;> rcases hmem b hb with hb' | hb'
        · exact hcp a ha' b hb'
        · rw [hb']
          exact Key.agreeBelow_symm (hknew a ha')
        · rw [ha']
          exact hknew b hb'
        · rw [ha', hb']
          exact Key.agreeBelow_refl key _
      · rw [if_neg hd] at hfl
        rw [if_neg hd, coh_inner]
        refine ⟨ihl hcl hfl, hcr, ?_⟩
        have hmem : ∀ x ∈ (l.insertAt key val bit).leavesDir 0 ++ r.leavesDir 0,
            x ∈ l.leavesDir 0 ++ r.leavesDir 0 ∨ x = (key, val) := by
          intro x hx
          rcases List.mem_append.mp hx with h' | h'
          · rcases mem_leaves_insertAt h' with h'' | h''
            · exact Or.inl (List.mem_append.mpr (Or.inl h''))
            · exact Or.inr h''
          · exact Or.inl (List.mem_append.mpr (Or.inr h'))
        intro a ha b hb
        rcases hmem a ha with ha' | ha' <;> rcases hmem b hb with hb' | hb'
        · exact hcp a ha' b hb'
        · rw [hb']
          exact Key.agreeBelow_symm (hknew a ha')
        · rw [ha']
          exact hknew b hb'
        · rw [ha', hb']
          exact Key.agreeBelow_refl key _

/-- Every leaf of the result of a successful `delete` was a leaf before. -/
theorem mem_leaves_delete {n m : Node V} {key : Key}
    (hdel : n.delete key = some m) {lf : Key × V} (h : lf ∈ m.leavesDir 0) :
    lf ∈ n.leavesDir 0 := by
  induction n generalizing m with
  | empty => cases hdel
  | leaf k v =>
    unfold delete at hdel
    split at hdel
    · injection hdel with hdel
      rw [← hdel] at h
      cases h
    · cases hdel
  | inner bit l r ihl ihr =>
    rw [delete_inner] at hdel
    rw [leavesDir_zero_inner]
    split at hdel
    · rcases hd : r.delete key with _ | m'
      · rw [hd] at hdel; cases hdel
      · rw [hd] at hdel
        cases m' with
        | empty =>
          injection hdel with hdel
          rw [← hdel] at h
          exact List.mem_append.mpr (Or.inl h)
        | leaf k' v' =>
          injection hdel with hdel
          rw [← hdel, leavesDir_zero_inner] at h
          rcases List.mem_append.mp h with h' | h'
          · exact List.mem_append.mpr (Or.inl h')
          · exact List.mem_append.mpr (Or.inr (ihr hd h'))
        | inner bit' l' r' =>
          injection hdel with hdel
          rw [← hdel, leavesDir_zero_inner] at h
          rcases List.mem_append.mp h with h' | h'
          · exact List.mem_append.mpr (Or.inl h')
          · exact List.mem_append.mpr (Or.inr (ihr hd h'))
    · rcases hd : l.delete key with _ | m'
      · rw [hd] at hdel; cases hdel
      · rw [hd] at hdel
        cases m' with
        | empty =>
          injection hdel with hdel
          rw [← hdel] at h
          exact List.mem_append.mpr (Or.inr h)
        | leaf k' v' =>
          injection hdel with hdel
          rw [← hdel, leavesDir_zero_inner] at h
          rcases List.mem_append.mp h with h' | h'
          · exact List.mem_append.mpr (Or.inl (ihl hd h'))
          · exact List.mem_append.mpr (Or.inr h')
        | inner bit' l' r' =>
          injection hdel with hdel
          rw [← hdel, leavesDir_zero_inner] at h
          rcases List.mem_append.mp h with h' | h'
          · exact List.mem_append.mpr (Or.inl (ihl hd h'))
          · exact List.mem_append.mpr (Or.inr h')

/-- `delete` preserves routing coherence. -/
theorem coh_delete {n m : Node V} {key : Key} (hcoh : n.Coh)
    (hdel : n.delete key = some m) : m.Coh := by
  induction n generalizing m with
  | empty => cases hdel
  | leaf k v =>
    unfold delete at hdel
    split at hdel
    · injection hdel with hdel
      rw [← hdel]
      exact coh_empty
    · cases hdel
  | inner bit l r ihl ihr =>
    obtain ⟨hcl, hcr, hcp⟩ := hcoh
    rw [delete_inner] at hdel
    split at hdel
    · rcases hd : r.delete key with _ | m'
      · rw [hd] at hdel; cases hdel
      · rw [hd] at hdel
        have hsub : ∀ x ∈ l.leavesDir 0 ++ m'.leavesDir 0,
            x ∈ l.leavesDir 0 ++ r.leavesDir 0 := by
          intro x hx
          rcases List.mem_append.mp hx with h' | h'
          · exact List.mem_append.mpr (Or.inl h')
          · exact List.mem_append.mpr (Or.inr (mem_leaves_delete hd h'))
        cases m' with
        | empty => injection hdel with hdel; rw [← hdel]; exact hcl
        | leaf k' v' =>
          injection hdel with hdel
          rw [← hdel, coh_inner]
          exact ⟨hcl, ihr hcr hd, fun a ha b hb => hcp a (hsub a ha) b (hsub b hb)⟩
        | inner bit' l' r' =>
          injection hdel with hdel
          rw [← hdel, coh_inner]
          exact ⟨hcl, ihr hcr hd, fun a ha b hb => hcp a (hsub a ha) b (hsub b hb)⟩
    · rcases hd : l.delete key with _ | m'
      · rw [hd] at hdel; cases hdel
      · rw [hd] at hdel
        have hsub : ∀ x ∈ m'.leavesDir 0 ++ r.leavesDir 0,
            x ∈ l.leavesDir 0 ++ r.leavesDir 0 := by
          intro x hx
          rcases List.mem_append.mp hx with h' | h'
          · exact List.mem_append.mpr (Or.inl (mem_leaves_delete hd h'))
          · exact List.mem_append.mpr (Or.inr h')
        cases m' with
        | empty => injection hdel with hdel; rw [← hdel]; exact hcr
        | leaf k' v' =>
          injection hdel with hdel
          rw [← hdel, coh_inner]
          exact ⟨ihl hcl hd, hcr, fun a ha b hb => hcp a (hsub a ha) b (hsub b hb)⟩
        | inner bit' l' r' =>
          injection hdel with hdel
          rw [← hdel, coh_inner]
          exact ⟨ihl hcl hd, hcr, fun a ha b hb => hcp a (hsub a ha) b (hsub b hb)⟩

/-- `replaceValue` preserves routing coherence (it only touches values). -/
theorem coh_replaceValue {n : Node V} (hcoh : n.Coh) (key : Key) (val : V) :
    (n.replaceValue key val).Coh := by
  induction n with
  | empty => exact coh_empty
  | leaf k v => exact coh_leaf k val
  | inner bit l r ihl ihr =>
    obtain ⟨hcl, hcr, hcp⟩ := hcoh
    rw [replaceValue_inner]
    split <;> rw [coh_inner]
    · refine ⟨hcl, ihr hcr, ?_⟩
      have hmem : ∀ x ∈ l.leavesDir 0 ++ (r.replaceValue key val).leavesDir 0,
          ∃ w, (x.1, w) ∈ l.leavesDir 0 ++ r.leavesDir 0 := by
        intro x hx
        rcases List.mem_append.mp hx with h' | h'
        · exact ⟨x.2, List.mem_append.mpr (Or.inl (by simpa using h'))⟩
        · obtain ⟨w, hw⟩ := mem_leaves_replaceValue h'
          exact ⟨w, List.mem_append.mpr (Or.inr hw)⟩
      intro a ha b hb
      obtain ⟨wa, hwa⟩ := hmem a ha
      obtain ⟨wb, hwb⟩ := hmem b hb
      exact hcp (a.1, wa) hwa (b.1, wb) hwb
    · refine ⟨ihl hcl, hcr, ?_⟩
      have hmem : ∀ x ∈ (l.replaceValue key val).leavesDir 0 ++ r.leavesDir 0,
          ∃ w, (x.1, w) ∈ l.leavesDir 0 ++ r.leavesDir 0 := by
        intro x hx
        rcases List.mem_append.mp hx with h' | h'
        · obtain ⟨w, hw⟩ := mem_leaves_replaceValue h'
          exact ⟨w, List.mem_append.mpr (Or.inl hw)⟩
        · exact ⟨x.2, List.mem_append.mpr (Or.inr (by simpa using h'))⟩
      intro a ha b hb
      obtain ⟨wa, hwa⟩ := hmem a ha
      obtain ⟨wb, hwb⟩ := hmem b hb
      exact hcp (a.1, wa) hwa (b.1, wb) hwb

/-- Under `ZeroHead`, a stored zero-length entry must be the head of the
leaf sequence (and hence is unique). -/
theorem zeroHead_head {n : Node V} (hzh : n.ZeroHead) {w : V}
    (hmem : (zeroKey, w) ∈ n.leavesDir 0) :
    (n.leavesDir 0).head? = some (zeroKey, w) := by
  rcases hx : n.leavesDir 0 with _ | ⟨a, t⟩
  · rw [hx] at hmem
    cases hmem
  · rw [hx] at hmem
    rcases List.mem_cons.mp hmem with h' | h'
    · rw [← h']
      rfl
    · exfalso
      exact hzh (zeroKey, w) (by rw [hx]; exact h') rfl

/-- Splicing the zero-length key always puts it first. -/
theorem splice_zeroKey_leaves (n : Node V) (val : V) (bit : Nat) :
    (n.splice zeroKey val bit).leavesDir 0 = (zeroKey, val) :: n.leavesDir 0 := by
  rw [splice_eq, Key.direction_zeroKey, if_neg (by decide), leavesDir_zero_inner]
  rfl

/-- Inserting the zero-length key always puts it first. -/
theorem insertAt_zeroKey_leaves (n : Node V) (val : V) (bit : Nat) :
    (n.insertAt zeroKey val bit).leavesDir 0 =
      (zeroKey, val) :: n.leavesDir 0 := by
  induction n with
  | empty => exact splice_zeroKey_leaves _ val bit
  | leaf k v => exact splice_zeroKey_leaves _ val bit
  | inner ibit l r ihl ihr =>
    rw [insertAt_inner]
    by_cases hgt : ibit > bit
    · rw [if_pos hgt]
      exact splice_zeroKey_leaves _ val bit
    · rw [if_neg hgt, Key.direction_zeroKey, if_neg (by decide),
        leavesDir_zero_inner, ihl, leavesDir_zero_inner]
      rfl

/-- Splicing inserts exactly one new leaf, up to order. -/
theorem leaves_splice_perm (n : Node V) (key : Key) (val : V) (bit : Nat) :
    List.Perm ((n.splice key val bit).leavesDir 0)
      ((key, val) :: n.leavesDir 0) := by
  rw [splice_eq]
  split <;> rw [leavesDir_zero_inner]
  · exact List.perm_append_singleton _ _
  · exact List.Perm.refl _

/-- `insertAt` inserts exactly one new leaf, up to order. -/
theorem leaves_insertAt_perm (n : Node V) (key : Key) (val : V) (bit : Nat) :
    List.Perm ((n.insertAt key val bit).leavesDir 0)
      ((key, val) :: n.leavesDir 0) := by
  induction n with
  | empty => exact leaves_splice_perm _ _ _ _
  | leaf k v => exact leaves_splice_perm _ _ _ _
  | inner ibit l r ihl ihr =>
    rw [insertAt_inner]
    by_cases hgt : ibit > bit
    · rw [if_pos hgt]
      exact leaves_splice_perm _ _ _ _
    · rw [if_neg hgt]
      split <;> rw [leavesDir_zero_inner, leavesDir_zero_inner]
      · exact List.Perm.trans (List.Perm.append_left _ ihr) List.perm_middle
      · exact List.Perm.append_right _ ihl

/-- When a splice happens above the whole node (its top ordinal exceeds
the splice ordinal) and the zero-length key heads the node, the new key
routes right at the splice ordinal. -/
theorem splice_dir_one {e : Nat} {l r : Node V} {key : Key} {bit : Nat}
    {pk : Key} {pv : V} {v0 : V}
    (hne : (Node.inner e l r).NE) (hmono : (Node.inner e l r).MonoGE)
    (hcoh : (Node.inner e l r).Coh)
    (hcanon : ∀ lf ∈ (Node.inner e l r).leavesDir 0, lf.1.Canon)
    (hfl : (Node.inner e l r).findLeaf key = some (pk, pv))
    (hbit : pk.Critbit key = Int.ofNat bit)
    (hk : key.Canon)
    (hhead : ((Node.inner e l r).leavesDir 0).head? = some (zeroKey, v0))
    (hgt : e > bit) : key.Direction bit = 1 := by
  have hpkc : pk.Canon := hcanon _ (findLeaf_mem hfl)
  have hzmem : (zeroKey, v0) ∈ (Node.inner e l r).leavesDir 0 :=
    mem_of_head_some hhead
  have hpkmem : (pk, pv) ∈ (Node.inner e l r).leavesDir 0 := findLeaf_mem hfl
  rw [leavesDir_zero_inner] at hzmem hpkmem
  rcases Nat.mod_two_eq_zero_or_one bit with hpar | hpar
  · obtain ⟨hbeq, hbne, _⟩ := Key.critbit_even hpkc.1 hk.1 hbit hpar
    by_cases hlen : pk.Nbits < key.Nbits
    · rw [Key.direction_even hk.1 hpar, if_pos]
      rw [hbeq, shiftRight1_eq]
      omega
    · exfalso
      have halll : ∀ f ∈ (Node.inner e l r).innerBits, key.Direction f = 0 := by
        intro f hf
        apply Key.direction_ge_length hk.1
        have hfe := innerBits_bound hmono f hf
        omega
      have hflm := findLeaf_eq_leftmost halll
      rw [hflm, leftmost_eq_head hne, hhead] at hfl
      have hpkz : zeroKey = pk := congrArg Prod.fst (Option.some.inj hfl)
      have hpk0 : pk.Nbits = 0 := by rw [← hpkz]; rfl
      omega
  · obtain ⟨_, hdiff, _⟩ := Key.critbit_odd hpkc.1 hk.1 hbit hpar
    obtain ⟨_, _, hcp⟩ := hcoh
    have hs : bit >>> 1 < e >>> 1 := by
      rw [shiftRight1_eq, shiftRight1_eq]
      omega
    have hagree : pk.ebit (bit >>> 1) = zeroKey.ebit (bit >>> 1) :=
      hcp (pk, pv) hpkmem (zeroKey, v0) hzmem (bit >>> 1) hs
    rw [Key.ebit_zeroKey] at hagree
    have hkey : key.ebit (bit >>> 1) = true := by
      rw [hagree] at hdiff
      exact eq_true_of_ne_false (fun hc => hdiff hc.symm)
    rw [Key.direction_odd hk.1 hpar, hkey]
    rfl

/-- `insertAt` keeps the zero-length entry at the head of the leaf
sequence (for a canonical, nonzero inserted key with the probe's
critical ordinal). -/
theorem insertAt_head {n : Node V} {key : Key} {val : V} {bit : Nat}
    {pk : Key} {pv : V} {v0 : V}
    (hne : n.NE) (hmono : n.MonoGE) (hcoh : n.Coh)
    (hcanon : ∀ lf ∈ n.leavesDir 0, lf.1.Canon)
    (hfl : n.findLeaf key = some (pk, pv))
    (hbit : pk.Critbit key = Int.ofNat bit)
    (hk : key.Canon) (hkz : key ≠ zeroKey)
    (hhead : (n.leavesDir 0).head? = some (zeroKey, v0)) :
    ((n.insertAt key val bit).leavesDir 0).head? = some (zeroKey, v0) := by
  induction n with
  | empty => cases hfl
  | leaf k0 w =>
    have hk0 : (k0, w) = (zeroKey, v0) := by
      simpa [leavesDir] using hhead
    have hpk0 : (pk, pv) = (k0, w) := by
      unfold findLeaf at hfl
      exact (Option.some.inj hfl).symm
    have hpkz : pk = zeroKey := by
      have h1 : pk = k0 := congrArg Prod.fst hpk0
      have h2 : k0 = zeroKey := congrArg Prod.fst hk0
      rw [h1, h2]
    have hdir : key.Direction bit = 1 := by
      apply Key.direction_of_critbit_zeroKey hk hkz
      rw [← hpkz]
      exact hbit
    rw [insertAt_base _ _ _ _ (by intro ibit l r hc; cases hc), splice_eq,
      hdir, if_pos (by decide), leavesDir_zero_inner]
    show ((k0, w) :: [(key, val)]).head? = some (zeroKey, v0)
    rw [hk0]
    rfl
  | inner e l r ihl ihr =>
    have hne' : (Node.inner e l r).NE := hne
    obtain ⟨hl, hr, hnl, hnr⟩ := hne
    have hllne : l.leavesDir 0 ≠ [] := leavesDir_ne_nil hnl hl 0
    have hheadl : (l.leavesDir 0).head? = some (zeroKey, v0) := by
      rw [leavesDir_zero_inner, head?_append_ne_nil _ hllne] at hhead
      exact hhead
    rw [insertAt_inner]
    by_cases hgt : e > bit
    · rw [if_pos hgt]
      have hdir : key.Direction bit = 1 :=
        splice_dir_one hne' hmono hcoh hcanon hfl hbit hk hhead hgt
      rw [splice_eq, hdir, if_pos (by decide), leavesDir_zero_inner,
        head?_append_ne_nil _ (leavesDir_ne_nil hne' (by simp) 0)]
      exact hhead
    · rw [if_neg hgt]
      obtain ⟨_, _, hm3, _⟩ := hmono
      obtain ⟨hcl, _, _⟩ := hcoh
      have hcanonl : ∀ lf ∈ l.leavesDir 0, lf.1.Canon := by
        intro lf hlf
        exact hcanon lf (by
          rw [leavesDir_zero_inner]
          exact List.mem_append.mpr (Or.inl hlf))
      rw [findLeaf_inner] at hfl
      by_cases hd : (key.Direction e == 1) = true
      · rw [if_pos hd, leavesDir_zero_inner, head?_append_ne_nil _ hllne]
        exact hheadl
      · rw [if_neg hd] at hfl
        rw [if_neg hd, leavesDir_zero_inner,
          head?_append_ne_nil _
            (leavesDir_ne_nil (NE_insertAt hnl hl key val bit)
              (insertAt_ne_empty l key val bit) 0)]
        exact ihl hnl hm3 hcl hcanonl hfl hheadl

/-- `insertAt` preserves the zero-at-head discipline of the leaf
sequence. -/
theorem zeroHead_insertAt {n : Node V} {key : Key} {val : V} {bit : Nat}
    {pk : Key} {pv : V}
    (hne : n.NE) (hmono : n.MonoGE) (hcoh : n.Coh)
    (hcanon : ∀ lf ∈ n.leavesDir 0, lf.1.Canon)
    (hfl : n.findLeaf key = some (pk, pv))
    (hbit : pk.Critbit key = Int.ofNat bit)
    (hk : key.Canon) (hzh : n.ZeroHead) :
    (n.insertAt key val bit).ZeroHead := by
  by_cases hmem : ∃ w, (zeroKey, w) ∈ n.leavesDir 0
  · obtain ⟨w, hw⟩ := hmem
    have hhead : (n.leavesDir 0).head? = some (zeroKey, w) := zeroHead_head hzh hw
    have hkz : key ≠ zeroKey := by
      rintro rfl
      rw [findLeaf_zeroKey, leftmost_eq_head hne, hhead] at hfl
      have hpkz : zeroKey = pk := congrArg Prod.fst (Option.some.inj hfl)
      rw [← hpkz, Key.critbit_zeroKey_self] at hbit
      have hnn : (0 : Int) ≤ Int.ofNat bit := Int.ofNat_nonneg bit
      rw [← hbit] at hnn
      exact absurd hnn (by decide)
    have hheadnew :=
      @insertAt_head V n key val bit pk pv w hne hmono hcoh hcanon hfl hbit hk
        hkz hhead
    have hperm := leaves_insertAt_perm n key val bit
    have hcount : ((n.insertAt key val bit).leavesDir 0).countP
        (fun x => decide (x.1 = zeroKey)) = 1 := by
      rw [hperm.countP_eq]
      rcases hx : n.leavesDir 0 with _ | ⟨a, t⟩
      · rw [hx] at hhead
        cases hhead
      · rw [hx] at hhead
        have ha : a = (zeroKey, w) := Option.some.inj hhead
        have ht : t.countP (fun x : Key × V => decide (x.1 = zeroKey)) = 0 := by
          rw [List.countP_eq_zero]
          intro x hx'
          simp only [decide_eq_true_eq]
          exact hzh x (by rw [hx]; exact hx')
        rw [List.countP_cons, List.countP_cons, ht, ha]
        simp [hkz]
    intro lf hlf hlfz
    rcases hy : (n.insertAt key val bit).leavesDir 0 with _ | ⟨b, t1⟩
    · rw [hy] at hlf
      cases hlf
    · rw [hy] at hheadnew hcount hlf
      have hb : b = (zeroKey, w) := Option.some.inj hheadnew
      rw [List.countP_cons, hb] at hcount
      simp at hcount
      have hlfe : (lf.1, lf.2) = lf := rfl
      exact hcount lf.1 lf.2 (hlfe ▸ hlf) hlfz
  · push_neg at hmem
    by_cases hkz : key = zeroKey
    · subst hkz
      intro lf hlf hlfz
      rw [insertAt_zeroKey_leaves] at hlf
      have hlfe : (zeroKey, lf.2) = lf := by rw [← hlfz]
      exact hmem lf.2 (hlfe ▸ (hlf : lf ∈ n.leavesDir 0))
    · intro lf hlf hlfz
      have hlf' : lf ∈ (n.insertAt key val bit).leavesDir 0 :=
        List.mem_of_mem_tail hlf
      rcases mem_leaves_insertAt hlf' with h' | h'
      · have hlfe : (zeroKey, lf.2) = lf := by rw [← hlfz]
        exact hmem lf.2 (hlfe ▸ h')
      · apply hkz
        rw [← hlfz, h']

/-- `delete` preserves the zero-at-head discipline. -/
theorem zeroHead_delete {n m : Node V} {key : Key} (hne : n.NE)
    (hdel : n.delete key = some m) (hzh : n.ZeroHead) : m.ZeroHead := by
  obtain ⟨p, s, lf0, h1, h2, _⟩ := delete_leaves hne hdel
  intro lf hlf hlfz
  apply hzh lf _ hlfz
  rw [h1]
  rw [h2] at hlf
  cases p with
  | nil => exact List.mem_of_mem_tail hlf
  | cons a p' =>
    have hlf' : lf ∈ p' ++ s := hlf
    rcases List.mem_append.mp hlf' with h' | h'
    · exact List.mem_append.mpr (Or.inl h')
    · exact List.mem_append.mpr (Or.inr (List.mem_cons_of_mem _ h'))

/-- `replaceValue` preserves the zero-at-head discipline. -/
theorem zeroHead_replaceValue {n : Node V} (hzh : n.ZeroHead)
    (key : Key) (val : V) : (n.replaceValue key val).ZeroHead := by
  intro lf hlf hlfz
  have h1 : lf.1 ∈ ((n.replaceValue key val).leavesDir 0).tail.map Prod.fst :=
    List.mem_map_of_mem _ hlf
  rw [List.map_tail, keys_replaceValue, ← List.map_tail] at h1
  obtain ⟨x, hx, hxe⟩ := List.mem_map.mp h1
  exact hzh x hx (hxe.trans hlfz)

end Node

/-- Every tree reachable by `Set`/`Delete` with canonical keys keeps the
full invariant bundle: no empty node under an inner node, canonical
leaves, non-strict monotone inner ordinals, routing coherence, and the
zero-length key only at the head of the leaf order. -/
theorem reachableC_inv9 {V : Type} {t : Tree V} (h : ReachableC t) :
    t.root.NE ∧ (∀ lf ∈ t.root.leavesDir 0, lf.1.Canon) ∧
      t.root.MonoGE ∧ t.root.Coh ∧ t.root.ZeroHead := by
  induction h with
  | empty =>
    refine ⟨trivial, ?_, Node.monoGE_empty, Node.coh_empty, ?_⟩
    · intro lf hlf
      cases hlf
    · intro lf hlf
      cases hlf
  | set k v ht hk ih =>
    obtain ⟨hne, hcan, hmono, hcoh, hzh⟩ := ih
    rename_i t'
    rcases hfl : t'.root.findLeaf k with _ | ⟨pk, pv⟩
    · refine ⟨?_, ?_, ?_, ?_, ?_⟩ <;> simp only [Tree.Set, hfl]
      · trivial
      · intro lf hlf
        simp [Node.leavesDir] at hlf
        rw [hlf]
        exact hk
      · exact Node.monoGE_leaf k v
      · exact Node.coh_leaf k v
      · intro lf hlf
        cases hlf
    · have hrne : t'.root ≠ .empty := by
        intro hc'
        rw [hc'] at hfl
        cases hfl
      by_cases hbit : pk.Critbit k = -1
      · refine ⟨?_, ?_, ?_, ?_, ?_⟩ <;> simp only [Tree.Set, hfl, if_pos hbit]
        · exact Node.NE_replaceValue hne k v
        · intro lf hlf
          obtain ⟨v', hv'⟩ := Node.mem_leaves_replaceValue hlf
          exact hcan (lf.1, v') hv'
        · exact Node.monoGE_replaceValue hmono k v
        · exact Node.coh_replaceValue hcoh k v
        · exact Node.zeroHead_replaceValue hzh k v
      · have hpkc : pk.Canon := hcan _ (Node.findLeaf_mem hfl)
        obtain ⟨m, hm⟩ : ∃ m : Nat, pk.Critbit k = Int.ofNat m := by
          rcases Key.critbit_cases pk k hpkc.1 hk.1 with
            ⟨h1, _, _⟩ | ⟨s, hs, _, _, _⟩ | ⟨hs, _, _⟩
          · exact absurd h1 hbit
          · exact ⟨2 * s + 1, hs⟩
          · exact ⟨2 * min pk.Nbits k.Nbits, hs⟩
        have htn : (pk.Critbit k).toNat = m := by rw [hm]; rfl
        have hag : Key.agreeBelow k pk (m >>> 1) := by
          intro i hi
          exact (Key.critbit_agree_below hpkc.1 hk.1 hm i hi).symm
        refine ⟨?_, ?_, ?_, ?_, ?_⟩ <;>
          simp only [Tree.Set, hfl, if_neg hbit, htn]
        · exact Node.NE_insertAt hne hrne k v m
        · intro lf hlf
          rcases Node.mem_leaves_insertAt hlf with h' | h'
          · exact hcan _ h'
          · rw [h']
            exact hk
        · exact Node.monoGE_insertAt hmono k v m
        · exact Node.coh_insertAt hcoh hfl hag
        · exact Node.zeroHead_insertAt hne hmono hcoh hcan hfl hm hk hzh
  | del k ht hk ih =>
    obtain ⟨hne, hcan, hmono, hcoh, hzh⟩ := ih
    rename_i t'
    rcases hdel : t'.root.delete k with _ | mm
    · simp only [Tree.Delete, hdel]
      exact ⟨hne, hcan, hmono, hcoh, hzh⟩
    · refine ⟨?_, ?_, ?_, ?_, ?_⟩ <;> simp only [Tree.Delete, hdel]
      · exact Node.NE_delete hne hdel
      · intro lf hlf
        exact hcan lf (Node.mem_leaves_delete hdel hlf)
      · exact Node.monoGE_delete hmono hdel
      · exact Node.coh_delete hcoh hdel
      · exact Node.zeroHead_delete hne hdel hzh

/-- Restricting `ZeroHead` to the children of an inner node: the left
child keeps it, and the right child holds no zero-length leaf at all. -/
theorem Node.zeroHead_left {V : Type} {e : Nat} {l r : Node V}
    (hlne : l.leavesDir 0 ≠ [])
    (hzh : (Node.inner e l r).ZeroHead) :
    l.ZeroHead ∧ ∀ lf ∈ r.leavesDir 0, lf.1 ≠ zeroKey := by
  rcases hx : l.leavesDir 0 with _ | ⟨a, tl⟩
  · exact absurd hx hlne
  · have htail : ((Node.inner e l r).leavesDir 0).tail = tl ++ r.leavesDir 0 := by
      rw [Node.leavesDir_zero_inner, hx]
      rfl
    constructor
    · intro lf hlf
      apply hzh lf
      rw [htail]
      rw [hx] at hlf
      exact List.mem_append.mpr (Or.inl hlf)
    · intro lf hlf
      apply hzh lf
      rw [htail]
      exact List.mem_append.mpr (Or.inr hlf)

/-- When the zero-length key is stored (under the head discipline),
`Longest` succeeds on every query key: the asymmetric fallback always
bottoms out at the zero-length leaf. -/
theorem Node.Longest_found {V : Type} {n : Node V} {v0 : V}
    (hne : n.NE) (hzh : n.ZeroHead)
    (hmem : (zeroKey, v0) ∈ n.leavesDir 0) (q : Key) :
    ∃ v, n.Longest q = some v := by
  induction n with
  | empty => simp [Node.leavesDir] at hmem
  | leaf k w =>
    have hk : (zeroKey, v0) = (k, w) := by simpa [Node.leavesDir] using hmem
    have hkk : zeroKey = k := congrArg Prod.fst hk
    refine ⟨w, ?_⟩
    show (if q.HasPrefix k then some w else none) = some w
    rw [← hkk, Key.hasPrefix_zeroKey]
    rfl
  | inner e l r ihl ihr =>
    obtain ⟨hl, hr, hnl, hnr⟩ := hne
    have hlne := Node.leavesDir_ne_nil hnl hl 0
    obtain ⟨hzl, hzr⟩ := Node.zeroHead_left hlne hzh
    have hmeml : (zeroKey, v0) ∈ l.leavesDir 0 := by
      rw [Node.leavesDir_zero_inner] at hmem
      rcases List.mem_append.mp hmem with h' | h'
      · exact h'
      · exact absurd rfl (hzr _ h')
    obtain ⟨v, hv⟩ := ihl hnl hzl hmeml
    rw [Node.Longest_inner]
    by_cases hd : (q.Direction e == 1) = true
    · rw [if_pos hd]
      rcases hrl : r.Longest q with _ | v'
      · refine ⟨v, ?_⟩
        show l.Longest q = some v
        exact hv
      · exact ⟨v', rfl⟩
    · rw [if_neg hd]
      exact ⟨v, hv⟩

/-- `Longest` only ever returns the value of a stored leaf whose key is a
prefix of the query key. -/
theorem Node.Longest_sound {V : Type} {n : Node V} {q : Key} {v : V}
    (h : n.Longest q = some v) :
    ∃ p, (p, v) ∈ n.leavesDir 0 ∧ q.HasPrefix p = true := by
  induction n with
  | empty => cases h
  | leaf k w =>
    have h' : (if q.HasPrefix k then some w else none) = some v := h
    split at h'
    · rename_i hc
      injection h' with h'
      exact ⟨k, by simp [Node.leavesDir, h'], hc⟩
    · cases h'
  | inner e l r ihl ihr =>
    rw [Node.Longest_inner] at h
    split at h
    · rcases hrl : r.Longest q with _ | v'
      · rw [hrl] at h
        obtain ⟨p, hp, hpfx⟩ := ihl h
        exact ⟨p, by
          rw [Node.leavesDir_zero_inner]
          exact List.mem_append.mpr (Or.inl hp), hpfx⟩
      · rw [hrl] at h
        have hveq : v' = v := Option.some.inj h
        obtain ⟨p, hp, hpfx⟩ := ihr (by rw [hrl, hveq])
        exact ⟨p, by
          rw [Node.leavesDir_zero_inner]
          exact List.mem_append.mpr (Or.inr hp), hpfx⟩
    · obtain ⟨p, hp, hpfx⟩ := ihl h
      exact ⟨p, by
        rw [Node.leavesDir_zero_inner]
        exact List.mem_append.mpr (Or.inl hp), hpfx⟩

theorem Node.leafCount_le_size {V : Type} (n : Node V) :
    n.leafCount ≤ n.size := by
  induction n with
  | empty => exact Nat.zero_le 1
  | leaf k v => exact le_refl 1
  | inner bit l r ihl ihr =>
    show l.leafCount + r.leafCount ≤ l.size + r.size + 1
    omega

theorem reduceOption_map_some {α : Type} (xs : List α) :
    (xs.map some).reduceOption = xs := by
  induction xs with
  | nil => rfl
  | cons a tl ih => simp [List.reduceOption_cons_of_some, ih]

theorem reduceOption_replicate_none {α : Type} (m : Nat) :
    (List.replicate m (none : Option α)).reduceOption = [] := by
  induction m with
  | zero => rfl
  | succ m ih => simp [List.replicate_succ, List.reduceOption_cons_of_none, ih]

/-- Exhausting a forward scanner lists exactly the leaves in order. -/
theorem Tree.All_eq_leaves {V : Type} {t : Tree V} (hne : t.root.NE) :
    t.All = t.root.leavesDir 0 := by
  unfold Tree.All
  have hnew : NewScanner t.root false = ⟨0, [t.root]⟩ := rfl
  rw [hnew]
  by_cases hroot : t.root = .empty
  · rw [hroot]
    rfl
  · rw [scanN_spec 0 t.root.size [t.root] (by
      intro x hx
      rcases List.mem_cons.mp hx with h | h
      · rw [h]
        exact ⟨hne, hroot⟩
      · cases h)]
    have hsl : stackLeaves 0 [t.root] = t.root.leavesDir 0 := by
      show t.root.leavesDir 0 ++ stackLeaves 0 [] = _
      simp [stackLeaves]
    rw [hsl]
    have hlen : (t.root.leavesDir 0).length = t.root.leafCount :=
      Node.leavesDir_length 0 _
    have hle : t.root.leafCount ≤ t.root.size := Node.leafCount_le_size _
    rw [List.take_of_length_le (by
      rw [List.length_append, List.length_map, List.length_replicate]
      omega)]
    rw [List.reduceOption_append, reduceOption_map_some,
      reduceOption_replicate_none, List.append_nil]

/-- C9: the zero-length key is a prefix of every key; in every tree
reachable with canonical keys that stores it, it is the first key of
forward iteration, `Longest` reports found on every query key, and
`Longest` returns the zero-length entry's value whenever no stored key
with a positive bit count is a prefix of the query. -/
theorem c9_zero_key {V : Type} (t : Tree V) (v0 : V) (ht : ReachableC t)
    (hz : (zeroKey, v0) ∈ t.root.leavesDir 0) :
    (∀ k : Key, k.HasPrefix zeroKey = true) ∧
      t.Keys.head? = some zeroKey ∧
      (∀ q : Key, ∃ v, t.Longest q = some v) ∧
      (∀ q : Key,
        (∀ lf ∈ t.root.leavesDir 0, 0 < lf.1.Nbits →
          q.HasPrefix lf.1 = false) →
        t.Longest q = some v0) := by
  obtain ⟨hne, hcan, hmono, hcoh, hzh⟩ := reachableC_inv9 ht
  have hhead : (t.root.leavesDir 0).head? = some (zeroKey, v0) :=
    Node.zeroHead_head hzh hz
  refine ⟨Key.hasPrefix_zeroKey, ?_, ?_, ?_⟩
  · rw [Tree.Keys, Tree.All_eq_leaves hne]
    rcases hx : t.root.leavesDir 0 with _ | ⟨a, tl⟩
    · rw [hx] at hhead
      cases hhead
    · rw [hx] at hhead
      have ha : a = (zeroKey, v0) := Option.some.inj hhead
      rw [ha]
      rfl
  · intro q
    exact Node.Longest_found hne hzh hz q
  · intro q hq
    obtain ⟨v, hv⟩ := Node.Longest_found hne hzh hz q
    obtain ⟨p, hpmem, hpfx⟩ := Node.Longest_sound hv
    have hp0 : p.Nbits = 0 := by
      by_contra hc
      have := hq (p, v) hpmem (Nat.pos_of_ne_zero hc)
      rw [this] at hpfx
      cases hpfx
    have hpc : p.Canon := hcan _ hpmem
    have hpz : p = zeroKey := by
      have hlen : p.Data.length = 0 := by rw [hpc.2, hp0]
      have hdata : p.Data = [] := List.length_eq_zero.mp hlen
      cases p
      simp_all [zeroKey]
    rw [hpz] at hpmem
    have hv0 := Node.zeroHead_head hzh hpmem
    rw [hhead] at hv0
    have hveq : v0 = v := congrArg Prod.snd (Option.some.inj hv0)
    show t.root.Longest q = some v0
    rw [hv]
    exact congrArg some hveq.symm

/-- Witness for `c9_zero_key`: the concrete two-entry tree `cexT9`
storing the zero-length key with value 9, queried with the 8-bit key
`cexQ9` matched by no positive-length stored key. -/
theorem c9_zero_key_witness :
    (zeroKey, 9) ∈ cexT9.root.leavesDir 0 ∧
      cexT9.Keys.head? = some zeroKey ∧
      cexT9.Longest cexQ9 = some 9 := by
  have hrc : ReachableC cexT9 :=
    ReachableC.set cexK1 7
      (ReachableC.set zeroKey 9 ReachableC.empty (by decide)) (by decide)
  have h := c9_zero_key cexT9 9 hrc (by decide)
  exact ⟨by decide, h.2.1, h.2.2.2 cexQ9 (by decide)⟩

end Critbit
